import Mathlib

/-!
Verification of the 2D contour pipeline of the stl-generator repository.

The development shallowly embeds the pure contour algorithms of
`app/vectorize.py` (boundary tracing, shoelace area, Douglas-Peucker
simplification, Catmull-Rom path emission) and the region classifier
`_group_contours_into_objects` of `app/font_utils.py`, and proves the
spec-level properties about them.

Modelling conventions:
* Python floats are modelled by `ℚ` (the algorithms use only field
  operations and comparisons; the sole square root of the source is kept
  abstract, see `dpAux`).
* Python lists are Lean `List`s; `enumerate` is `List.enum`; the stable
  `list.sort` is modelled by the stable `List.insertionSort`.
* `while` loops with an explicit step bound are modelled by structural
  recursion on that bound (fuel), which is exactly the loop counter of the
  source.
-/

/-- A 2D point, as the `(x, y)` tuples of the source. -/
abbrev Pt := ℚ × ℚ

/-- A contour: an ordered list of points (`vectorize.py`, `font_utils.py`). -/
abbrev Contour := List Pt

/- ───────────────────────── `_contour_area` ───────────────────────── -/

/-- The cyclic shoelace sum accumulated by the loop of `_contour_area`
(`vectorize.py:374`): `area += x_i * y_j − x_j * y_i` with `j = (i+1) % n`. -/
def shoelaceSum (c : Contour) : ℚ :=
  ∑ i ∈ Finset.range c.length,
    ((c.getD i 0).1 * (c.getD ((i + 1) % c.length) 0).2
      - (c.getD ((i + 1) % c.length) 0).1 * (c.getD i 0).2)

/-- `_contour_area` (`vectorize.py:374`): `0.0` for fewer than 3 points,
otherwise `abs(shoelace)/2`. -/
def contour_area (c : Contour) : ℚ :=
  if c.length < 3 then 0 else |shoelaceSum c| / 2

/- ───────────────────── `_douglas_peucker` ───────────────────── -/

/-- The inner `for i in range(1, len(points)-1)` max-distance scan of
`_douglas_peucker` (`vectorize.py:397`): running pair `(max_idx, max_dist)`
starting at `(0, 0.0)`, updated whenever `d > max_dist`. -/
def firstArgmax (f : Nat → ℚ) (idxs : List Nat) : Nat × ℚ :=
  idxs.foldl (fun acc i => if acc.2 < f i then (i, f i) else acc) (0, 0)

/-- `_douglas_peucker` (`vectorize.py:388`), recursion made structural on a
fuel argument (the Python recursion depth is bounded by the list length
whenever the tolerance is non-negative, see `dpAux_fuel_irrel`).

The distance function is a parameter: the source's `_point_line_distance`
ends in `math.sqrt`, which is irrational; the simplifier consumes distances
only through `<` comparisons, so every statement below is proved for an
arbitrary distance function, which covers the source's one.  `distSqClamped`
below is the exact rational square of the source's distance. -/
def dpAux (dist : Pt → Pt → Pt → ℚ) (tol : ℚ) : Nat → List Pt → List Pt
  | 0, pts => pts
  | fuel + 1, pts =>
    if pts.length ≤ 2 then pts
    else
      let s := pts.getD 0 0
      let e := pts.getD (pts.length - 1) 0
      let md := firstArgmax (fun i => dist (pts.getD i 0) s e)
        (List.range' 1 (pts.length - 2))
      if tol < md.2 then
        (dpAux dist tol fuel (pts.take (md.1 + 1))).dropLast
          ++ dpAux dist tol fuel (pts.drop md.1)
      else [s, e]

/-- `_douglas_peucker(points, tolerance)`: the fuel `points.length` realizes
the call tree of the source (each recursive call strictly shortens the list
when `tolerance ≥ 0`). -/
def douglas_peucker (dist : Pt → Pt → Pt → ℚ) (tol : ℚ) (pts : List Pt) :
    List Pt :=
  dpAux dist tol pts.length pts

/-- The square of `_point_line_distance` (`vectorize.py:415`): clamped
projection of `point` on the segment `line_start`–`line_end`, then squared
Euclidean distance (the source takes `math.sqrt` of this value). -/
def distSqClamped (p a b : Pt) : ℚ :=
  let dx := b.1 - a.1
  let dy := b.2 - a.2
  if dx = 0 ∧ dy = 0 then (p.1 - a.1) ^ 2 + (p.2 - a.2) ^ 2
  else
    let t := ((p.1 - a.1) * dx + (p.2 - a.2) * dy) / (dx * dx + dy * dy)
    let t' := max 0 (min 1 t)
    (p.1 - (a.1 + t' * dx)) ^ 2 + (p.2 - (a.2 + t' * dy)) ^ 2

/- ───────────────── `_contour_to_svg_path` ───────────────── -/

/-- One SVG path command, as assembled (before decimal formatting) by
`_contour_to_svg_path` (`vectorize.py:440`). -/
inductive PathCmd where
  | move (p : Pt)
  | line (p : Pt)
  | curve (c1 c2 e : Pt)
  | close
  deriving DecidableEq, Repr

/-- `true` exactly on cubic-Bezier commands. -/
def PathCmd.isCurve : PathCmd → Bool
  | .curve _ _ _ => true
  | _ => false

/-- `_contour_to_svg_path` (`vectorize.py:440`), emitting the command list
the source serializes: `""` (no commands) under 3 points; `M p0`, then
`L`-lines for `n ≤ 4`, else the Catmull-Rom-to-Bezier loop
`for i in range(1, n)` with indices taken modulo `n`; final `Z`. -/
def contour_to_svg_path (points : List Pt) : List PathCmd :=
  if points.length < 3 then []
  else
    let n := points.length
    let g := fun i => points.getD i 0
    let body :=
      if n ≤ 4 then (points.drop 1).map PathCmd.line
      else
        (List.range' 1 (n - 1)).map fun i =>
          let p0 := g ((i - 1) % n)
          let p1 := g (i % n)
          let p2 := g ((i + 1) % n)
          let p3 := g ((i + 2) % n)
          PathCmd.curve
            (p1.1 + (p2.1 - p0.1) / 6, p1.2 + (p2.2 - p0.2) / 6)
            (p2.1 - (p3.1 - p1.1) / 6, p2.2 - (p3.2 - p1.2) / 6)
            p2
    PathCmd.move (g 0) :: body ++ [PathCmd.close]

/- ───────────── `_trace_boundary` and `_find_contours` ───────────── -/

/-- A 0-padded occupancy grid as handed to `_trace_boundary`
(`vectorize.py:321`): `w`/`h` are `padded.shape[1]`/`padded.shape[0]`;
`cell x y` is `padded[y, x] == 1` (the model's function is total, matching
the source's in-bounds guard before every read). -/
structure Grid where
  w : Nat
  h : Nat
  cell : Int → Int → Bool

/-- The 8-connectivity x-offsets of `_trace_boundary` (clockwise from
direction 0 = right). -/
def dxs : List Int := [1, 1, 0, -1, -1, -1, 0, 1]

/-- The 8-connectivity y-offsets of `_trace_boundary`. -/
def dys : List Int := [0, 1, 1, 1, 0, -1, -1, -1]

/-- The inner `for i in range(8)` neighbour scan of `_trace_boundary`:
first direction `d = (search_start + i) % 8` whose neighbour is in bounds
and foreground, returned with the neighbour coordinates. -/
def findNb (g : Grid) (x y : Int) (searchStart : Nat) :
    Option (Int × Int × Nat) :=
  (List.range 8).findSome? fun i =>
    let d := (searchStart + i) % 8
    let nx := x + dxs.getD d 0
    let ny := y + dys.getD d 0
    if 0 ≤ nx ∧ nx < (g.w : Int) ∧ 0 ≤ ny ∧ ny < (g.h : Int)
        ∧ g.cell nx ny then
      some (nx, ny, d)
    else none

/-- The `while steps < max_steps` loop of `_trace_boundary`, fuel = the
remaining step budget.  State: current cell, arrival direction, contour and
visited set built so far (the Python `set` is modelled as a list; only
membership is consumed). -/
def traceAux (g : Grid) (sx sy : Int) :
    Nat → Int → Int → Nat → List (Int × Int) → List (Int × Int) →
    List (Int × Int) × List (Int × Int)
  | 0, _, _, _, contour, visited => (contour, visited)
  | fuel + 1, x, y, dir, contour, visited =>
    match findNb g x y ((dir + 5) % 8) with
    | none => (contour, visited)
    | some (nx, ny, d) =>
      if (nx, ny) = (sx, sy) then (contour, visited)
      else
        traceAux g sx sy fuel nx ny d (contour ++ [(nx, ny)])
          (visited ++ [(nx, ny)])

/-- `_trace_boundary(padded, start_x, start_y, visited)`
(`vectorize.py:321`): contour and visited start at the start cell,
direction 0, safety bound `max_steps = padded.shape[0] * padded.shape[1]`. -/
def trace_boundary (g : Grid) (sx sy : Int) (visited : List (Int × Int)) :
    List (Int × Int) × List (Int × Int) :=
  traceAux g sx sy (g.h * g.w) sx sy 0 [(sx, sy)] (visited ++ [(sx, sy)])

/-- The 1-cell zero padding `np.pad(bw, 1)` of `_find_contours`
(`vectorize.py:299`) applied to a boolean raster (`binary > 0` is the
source's normalization to 0/1). -/
def mkPadded (bw : List (List Bool)) : Grid where
  w := (bw.headD []).length + 2
  h := bw.length + 2
  cell := fun x y =>
    if 1 ≤ x ∧ x ≤ ((bw.headD []).length : Int) ∧ 1 ≤ y
        ∧ y ≤ (bw.length : Int) then
      (bw.getD (y - 1).toNat []).getD (x - 1).toNat false
    else false

/-- One scan step of `_find_contours`: at `(x, y)` (padded coordinates), a
new trace starts when the cell is foreground, its left neighbour is
background and the cell is unvisited; the traced contour is kept only when
it has at least 3 points, shifted back by the padding offset. -/
def findStep (g : Grid) (st : List (Int × Int) × List (List (Int × Int)))
    (yx : Nat × Nat) : List (Int × Int) × List (List (Int × Int)) :=
  if g.cell yx.2 yx.1 ∧ ¬ g.cell ((yx.2 : Int) - 1) yx.1
      ∧ ((yx.2 : Int), (yx.1 : Int)) ∉ st.1 then
    ((trace_boundary g yx.2 yx.1 st.1).2,
      if 3 ≤ (trace_boundary g yx.2 yx.1 st.1).1.length then
        st.2 ++ [(trace_boundary g yx.2 yx.1 st.1).1.map
          fun p => (p.1 - 1, p.2 - 1)]
      else st.2)
  else st

/-- `_find_contours(binary)` (`vectorize.py:286`): row-major scan
`for y in range(1, h+1): for x in range(1, w+1)` over the padded grid,
threading the visited set. -/
def find_contours (bw : List (List Bool)) : List (List (Int × Int)) :=
  let h := bw.length
  let w := (bw.headD []).length
  let g := mkPadded bw
  (((List.range' 1 h).flatMap fun y => (List.range' 1 w).map fun x => (y, x))
    |>.foldl (findStep g) ([], [])).2

/- ─────────── `_group_contours_into_objects` (`font_utils.py:394`) ─────────── -/

/-- The Shapely polygon operations consumed by
`_group_contours_into_objects`.  The source builds
`ShapelyPolygon(coords)`, repairs it with `buffer(0)` when invalid, and then
only reads `is_empty`, `area`, and
`poly_j.contains(poly_i.representative_point())`; the classifier is embedded
over this interface and the classifier theorems hold for every
interpretation of it, in particular Shapely's.  `mkPoly` is the repaired
constructor; `containsRep p q` is `p.contains(q.representative_point())`;
`dflt` only totalizes list indexing (never reached on in-range indices). -/
structure GeomModel (P : Type) where
  mkPoly : Contour → P
  isEmpty : P → Bool
  area : P → ℚ
  containsRep : P → P → Bool
  dflt : P

variable {P : Type}

/-- Step 1 of `_group_contours_into_objects` (`font_utils.py:411`): keep
`(i, poly)` for each contour with at least 4 coordinates whose repaired
polygon is non-empty with area at least `0.01`. -/
def validItems (G : GeomModel P) (contours : List Contour) : List (Nat × P) :=
  contours.enum.filterMap fun ic =>
    if ic.2.length < 4 then none
    else
      let p := G.mkPoly ic.2
      if G.isEmpty p || G.area p < 1 / 100 then none else some (ic.1, p)

/-- `items.sort(key=lambda x: x[1].area, reverse=True)`: a stable descending
sort by area.  Python's `list.sort` is stable; `List.insertionSort` with
`area b ≤ area a` is the stable descending sort, so the two agree. -/
def sortedItems (G : GeomModel P) (contours : List Contour) : List (Nat × P) :=
  List.insertionSort (fun a b => G.area b.2 ≤ G.area a.2)
    (validItems G contours)

/-- Area of the polygon at sorted position `k` (`items[k][1].area`). -/
def areaAt (G : GeomModel P) (s : List (Nat × P)) (k : Nat) : ℚ :=
  G.area (s.getD k (0, G.dflt)).2

/-- `poly_j.contains(poly_i.representative_point())` between sorted
positions `j` and `i`. -/
def contAt (G : GeomModel P) (s : List (Nat × P)) (j i : Nat) : Bool :=
  G.containsRep (s.getD j (0, G.dflt)).2 (s.getD i (0, G.dflt)).2

/-- One iteration of the `for j in range(i-1, -1, -1)` scan of
`_group_contours_into_objects` (`font_utils.py:439`): when `poly_j`
contains the representative point of `poly_i`, `best_parent` moves to `j`
if unset or if `j`'s area is strictly below the current best's. -/
def scanStep (G : GeomModel P) (s : List (Nat × P)) (i : Nat)
    (best : Option Nat) (j : Nat) : Option Nat :=
  if contAt G s j i then
    match best with
    | none => some j
    | some b => if areaAt G s j < areaAt G s b then some j else some b
  else best

/-- Step 2 of `_group_contours_into_objects` (`font_utils.py:436`): the
descending scan `for j in range(i-1, -1, -1)` starting from
`best_parent = None`. -/
def bestParent (G : GeomModel P) (s : List (Nat × P)) (i : Nat) :
    Option Nat :=
  (List.range i).reverse.foldl (scanStep G s i) none

/-- The `while current in parent_pos` depth loop (`font_utils.py:453`),
fuel-bounded: the parent position is always strictly smaller than the
child's (`bestParent_lt`), so fuel `i` suffices and the loop of the source
terminates with this value. -/
def depthAux (parent : Nat → Option Nat) : Nat → Nat → Nat
  | 0, _ => 0
  | fuel + 1, i =>
    match parent i with
    | none => 0
    | some p => depthAux parent fuel p + 1

/-- Nesting depth of sorted position `i` (`font_utils.py:451`). -/
def depthOf (parent : Nat → Option Nat) (i : Nat) : Nat := depthAux parent i i

/-- One iteration of step 4 of `_group_contours_into_objects`
(`font_utils.py:462`): even depth opens a new `groups_map` entry, odd depth
appends the position to its parent's entry when that entry exists.  The
ordered Python dict is modelled as an association list in insertion
order. -/
def groupsMapStep (parent : Nat → Option Nat) (dep : Nat → Nat)
    (gm : List (Nat × List Nat)) (i : Nat) : List (Nat × List Nat) :=
  if dep i % 2 = 0 then gm ++ [(i, [])]
  else
    match parent i with
    | none => gm
    | some p =>
      if gm.any fun e => e.1 = p then
        gm.map fun e => if e.1 = p then (e.1, e.2 ++ [i]) else e
      else gm

/-- Step 4 of `_group_contours_into_objects`: fold of `groupsMapStep` over
positions `0..n-1`. -/
def groupsMap (parent : Nat → Option Nat) (dep : Nat → Nat) (n : Nat) :
    List (Nat × List Nat) :=
  (List.range n).foldl (groupsMapStep parent dep) []

/-- Step 5 of `_group_contours_into_objects` (`font_utils.py:472`):
`for outer_pos in sorted(groups_map.keys())`, emit
`[contours[orig idx of outer], contours of holes...]` and the matching
original-index group.  Sorting the entries by key equals sorting the keys,
as the keys are distinct. -/
def assembleGroups (contours : List Contour) (s : List (Nat × P))
    (dfltP : P) (gm : List (Nat × List Nat)) :
    List (List Contour) × List (List Nat) :=
  ((List.insertionSort (fun a b => a.1 ≤ b.1) gm).map fun e =>
      contours.getD (s.getD e.1 (0, dfltP)).1 []
        :: e.2.map fun hp => contours.getD (s.getD hp (0, dfltP)).1 [],
   (List.insertionSort (fun a b => a.1 ≤ b.1) gm).map fun e =>
      (s.getD e.1 (0, dfltP)).1 :: e.2.map fun hp => (s.getD hp (0, dfltP)).1)

/-- `_group_contours_into_objects(contours)` (`font_utils.py:394`),
including its short-circuit branches: inputs of at most one contour are
returned unclassified, and when no contour survives validation the whole
input is returned as one group over all original indices. -/
def group_contours_into_objects (G : GeomModel P) (contours : List Contour) :
    List (List Contour) × List (List Nat) :=
  if contours.length ≤ 1 then
    if contours.isEmpty then ([], []) else ([contours], [[0]])
  else if (validItems G contours).isEmpty then
    ([contours], [List.range contours.length])
  else
    assembleGroups contours (sortedItems G contours) G.dflt
      (groupsMap (bestParent G (sortedItems G contours))
        (depthOf (bestParent G (sortedItems G contours)))
        (sortedItems G contours).length)

/- ───────────── a concrete geometry for the nested-squares scenario ───────────── -/

/-- Modelled from the spec: the Polygon data model of §3 — "a Contour
validated/repaired into a simple ... region with a defined area and
containment predicate" — instantiated for the axis-aligned convex test
contours of the concentric-rings scenario (§8).  The polygon of such a
contour equals its bounding box, so Shapely's `area` is the box area,
`is_empty` is degeneracy of the box, `representative_point()` is some
interior point (the box midpoint here; for nested axis-aligned boxes every
interior point yields the same containment answers), and
`contains(representative_point())` is strict interior membership. -/
def boxGeom : GeomModel ((ℚ × ℚ) × (ℚ × ℚ)) where
  mkPoly c :=
    ((((c.map Prod.fst).foldr min 0 : ℚ), ((c.map Prod.snd).foldr min 0 : ℚ)),
     (((c.map Prod.fst).foldr max 0 : ℚ), ((c.map Prod.snd).foldr max 0 : ℚ)))
  isEmpty b := decide (b.2.1 ≤ b.1.1 ∨ b.2.2 ≤ b.1.2)
  area b := (b.2.1 - b.1.1) * (b.2.2 - b.1.2)
  containsRep b q :=
    let rx := (q.1.1 + q.2.1) / 2
    let ry := (q.1.2 + q.2.2) / 2
    decide (b.1.1 < rx ∧ rx < b.2.1 ∧ b.1.2 < ry ∧ ry < b.2.2)
  dflt := ((0, 0), (0, 0))

/-- A closed axis-aligned square contour from `(a, a)` to `(b, b)`. -/
def sqContour (a b : ℚ) : Contour := [(a, a), (b, a), (b, b), (a, b), (a, a)]

/- ═════════════════════ C10: shoelace area ═════════════════════ -/

/-- Indexing a reversed contour. -/
lemma getD_reverse_eq (c : Contour) (i : Nat) (h : i < c.length) :
    c.reverse.getD i 0 = c.getD (c.length - 1 - i) 0 := by
  have h' : i < c.reverse.length := by simpa using h
  rw [List.getD_eq_getElem _ _ h',
    List.getD_eq_getElem _ _ (show c.length - 1 - i < c.length by omega),
    List.getElem_reverse]

/-- `(j + n - 1) % n` is the cyclic predecessor: following it with the cyclic
successor is the identity on `[0, n)`. -/
lemma pred_succ_mod (n j : Nat) (h : j < n) : ((j + n - 1) % n + 1) % n = j := by
  rcases Nat.eq_zero_or_pos j with rfl | hj
  · rw [Nat.mod_eq_of_lt (show 0 + n - 1 < n by omega)]
    have : 0 + n - 1 + 1 = n := by omega
    rw [this, Nat.mod_self]
  · have h1 : j + n - 1 = n + (j - 1) := by omega
    rw [h1, Nat.add_mod_left, Nat.mod_eq_of_lt (show j - 1 < n by omega)]
    have : j - 1 + 1 = j := by omega
    rw [this, Nat.mod_eq_of_lt h]

/-- The cyclic successor followed by the cyclic predecessor is the identity
on `[0, n)`. -/
lemma succ_pred_mod (n k : Nat) (h : k < n) : ((k + 1) % n + n - 1) % n = k := by
  rcases Nat.lt_or_ge (k + 1) n with h1 | h1
  · rw [Nat.mod_eq_of_lt h1]
    have h2 : k + 1 + n - 1 = n + k := by omega
    rw [h2, Nat.add_mod_left, Nat.mod_eq_of_lt h]
  · have hk : k + 1 = n := by omega
    rw [hk, Nat.mod_self]
    have h2 : 0 + n - 1 = k := by omega
    rw [h2, Nat.mod_eq_of_lt h]

/-- Successor of the reflected cyclic successor, as used when reversing the
shoelace sum. -/
lemma succ_reflect_mod (n i : Nat) (h : i < n) :
    (n - 1 - (i + 1) % n + 1) % n = n - 1 - i := by
  rcases Nat.lt_or_ge (i + 1) n with h1 | h1
  · rw [Nat.mod_eq_of_lt h1]
    have h2 : n - 1 - (i + 1) + 1 = n - 1 - i := by omega
    rw [h2, Nat.mod_eq_of_lt (by omega)]
  · have hi : i + 1 = n := by omega
    rw [hi, Nat.mod_self]
    have h2 : n - 1 - 0 + 1 = n := by omega
    rw [h2, Nat.mod_self]
    omega

/-- Reversing a contour negates its cyclic shoelace sum. -/
lemma shoelaceSum_reverse (c : Contour) :
    shoelaceSum c.reverse = -shoelaceSum c := by
  rcases Nat.eq_zero_or_pos c.length with h0 | hpos
  · rw [List.length_eq_zero.mp h0]
    simp [shoelaceSum]
  · unfold shoelaceSum
    rw [List.length_reverse]
    set n := c.length with hn
    rw [← Finset.sum_neg_distrib]
    refine Finset.sum_nbij' (fun i => n - 1 - (i + 1) % n)
      (fun k => (n - 1 - k + n - 1) % n) ?_ ?_ ?_ ?_ ?_
    · intro a ha
      simp only []
      exact Finset.mem_range.mpr (by omega)
    · intro a ha
      exact Finset.mem_range.mpr (Nat.mod_lt _ hpos)
    · intro a ha
      simp only []
      have ha' : a < n := Finset.mem_range.mp ha
      have hm : (a + 1) % n < n := Nat.mod_lt _ hpos
      have h1 : n - 1 - (n - 1 - (a + 1) % n) = (a + 1) % n := by omega
      rw [h1]
      exact succ_pred_mod n a ha'
    · intro a ha
      simp only []
      have ha' : a < n := Finset.mem_range.mp ha
      have h1 : ((n - 1 - a + n - 1) % n + 1) % n = n - 1 - a :=
        pred_succ_mod n (n - 1 - a) (by omega)
      rw [h1]
      omega
    · intro a ha
      simp only []
      have ha' : a < n := Finset.mem_range.mp ha
      have hm : (a + 1) % n < n := Nat.mod_lt _ hpos
      rw [getD_reverse_eq c a ha', getD_reverse_eq c _ hm]
      rw [show c.length = n from hn.symm]
      rw [succ_reflect_mod n a ha']
      ring

/-- C10: the minimum-area filter's contour area is orientation-invariant —
reversing the point order leaves `_contour_area` unchanged (it is the
absolute shoelace area), and any contour with fewer than 3 points has
area 0. -/
theorem contour_area_reverse_invariant (c : Contour) :
    contour_area c.reverse = contour_area c
    ∧ (c.length < 3 → contour_area c = 0) := by
  constructor
  · unfold contour_area
    rw [List.length_reverse, shoelaceSum_reverse, abs_neg]
  · intro h
    unfold contour_area
    rw [if_pos h]

/-- Witness for `contour_area_reverse_invariant` at a concrete 2-point
contour. -/
theorem contour_area_reverse_invariant_witness :
    contour_area [((0 : ℚ), (0 : ℚ)), (1, 0)] = 0
    ∧ contour_area ([((0 : ℚ), (0 : ℚ)), (1, 0)].reverse)
      = contour_area [((0 : ℚ), (0 : ℚ)), (1, 0)] :=
  ⟨(contour_area_reverse_invariant [((0 : ℚ), (0 : ℚ)), (1, 0)]).2 (by decide),
   (contour_area_reverse_invariant [((0 : ℚ), (0 : ℚ)), (1, 0)]).1⟩

/- ═════════════════ C9: boundary-trace termination ═════════════════ -/

/-- The trace loop never changes the head of the contour accumulator. -/
lemma traceAux_head? (g : Grid) (sx sy : Int) :
    ∀ (fuel : Nat) (x y : Int) (dir : Nat)
      (contour visited : List (Int × Int)), contour ≠ [] →
      ((traceAux g sx sy fuel x y dir contour visited).1).head?
        = contour.head? := by
  intro fuel
  induction fuel with
  | zero => intro x y dir contour visited _; rfl
  | succ f ih =>
    intro x y dir contour visited hne
    simp only [traceAux]
    cases hfn : findNb g x y ((dir + 5) % 8) with
    | none => rfl
    | some t =>
      obtain ⟨nx, ny, d⟩ := t
      by_cases heq : (nx, ny) = (sx, sy)
      · simp [heq]
      · simp only [heq, if_false]
        rw [ih _ _ _ _ _ (by simp)]
        cases contour with
        | nil => exact absurd rfl hne
        | cons a l => rfl

/-- The trace loop never re-appends the start cell (the source returns as
soon as the walk reaches it). -/
lemma traceAux_count_start (g : Grid) (sx sy : Int) :
    ∀ (fuel : Nat) (x y : Int) (dir : Nat)
      (contour visited : List (Int × Int)),
      ((traceAux g sx sy fuel x y dir contour visited).1).count (sx, sy)
        = contour.count (sx, sy) := by
  intro fuel
  induction fuel with
  | zero => intro x y dir contour visited; rfl
  | succ f ih =>
    intro x y dir contour visited
    simp only [traceAux]
    cases hfn : findNb g x y ((dir + 5) % 8) with
    | none => rfl
    | some t =>
      obtain ⟨nx, ny, d⟩ := t
      by_cases heq : (nx, ny) = (sx, sy)
      · simp [heq]
      · simp only [heq, if_false]
        rw [ih]
        simp [List.count_append, List.count_singleton, heq]

/-- Each loop iteration appends at most one point. -/
lemma traceAux_length (g : Grid) (sx sy : Int) :
    ∀ (fuel : Nat) (x y : Int) (dir : Nat)
      (contour visited : List (Int × Int)),
      ((traceAux g sx sy fuel x y dir contour visited).1).length
        ≤ contour.length + fuel := by
  intro fuel
  induction fuel with
  | zero => intro x y dir contour visited; simp [traceAux]
  | succ f ih =>
    intro x y dir contour visited
    simp only [traceAux]
    cases hfn : findNb g x y ((dir + 5) % 8) with
    | none => simp
    | some t =>
      obtain ⟨nx, ny, d⟩ := t
      by_cases heq : (nx, ny) = (sx, sy)
      · simp [heq]
      · simp only [heq, if_false]
        calc ((traceAux g sx sy f nx ny d (contour ++ [(nx, ny)])
                (visited ++ [(nx, ny)])).1).length
            ≤ (contour ++ [(nx, ny)]).length + f := ih _ _ _ _ _
          _ = contour.length + (f + 1) := by simp; omega

/-- C9: a single boundary trace on a `w × h` raster stops as soon as the
walk returns to the start cell — the start cell occurs exactly once in the
returned contour, as its head — and otherwise after the safety bound of
`w*h` steps, so the contour holds at most `w*h + 1` points; the function is
total, hence never raises, and merely truncates on malformed input. -/
theorem trace_boundary_terminates (g : Grid) (sx sy : Int)
    (visited : List (Int × Int)) :
    (trace_boundary g sx sy visited).1.head? = some (sx, sy)
    ∧ (trace_boundary g sx sy visited).1.count (sx, sy) = 1
    ∧ (trace_boundary g sx sy visited).1.length ≤ g.h * g.w + 1 := by
  refine ⟨?_, ?_, ?_⟩
  · rw [trace_boundary, traceAux_head? g sx sy _ _ _ _ _ _ (by simp)]
    rfl
  · rw [trace_boundary, traceAux_count_start]
    simp
  · have h := traceAux_length g sx sy (g.h * g.w) sx sy 0 [(sx, sy)]
      (visited ++ [(sx, sy)])
    rw [trace_boundary]
    have h2 : ([(sx, sy)] : List (Int × Int)).length = 1 := rfl
    rw [h2] at h
    set m := g.h * g.w
    omega

/- ═════════════════ C6: short contours and the tracer ═════════════════ -/

/-- C6 counterexample: on a 1×1 raster with a single foreground pixel the
trace closes at length 1, yet `_find_contours` returns the empty list — the
tracer itself discards the short contour instead of retaining it. -/
theorem find_contours_short_dropped_counterexample :
    (trace_boundary (mkPadded [[true]]) 1 1 []).1.length = 1
    ∧ find_contours [[true]] = [] := by
  constructor
  · decide
  · decide

/-- The scan fold of `_find_contours` only ever appends contours of at
least 3 points. -/
lemma findStep_fold_min_three (g : Grid) :
    ∀ (l : List (Nat × Nat)) (st : List (Int × Int) × List (List (Int × Int))),
      (∀ c ∈ st.2, 3 ≤ c.length) →
      ∀ c ∈ (l.foldl (findStep g) st).2, 3 ≤ c.length := by
  intro l
  induction l with
  | nil => intro st h c hc; exact h c hc
  | cons a l ih =>
    intro st h
    refine ih (findStep g st a) ?_
    intro c hc
    unfold findStep at hc
    by_cases hcond : g.cell a.2 a.1 ∧ ¬ g.cell ((a.2 : Int) - 1) a.1
        ∧ ((a.2 : Int), (a.1 : Int)) ∉ st.1
    · rw [if_pos hcond] at hc
      by_cases hlen : 3 ≤ (trace_boundary g a.2 a.1 st.1).1.length
      · rw [if_pos hlen] at hc
        rcases List.mem_append.mp hc with hold | hnew
        · exact h c hold
        · rcases List.mem_singleton.mp hnew with rfl
          simpa using hlen
      · rw [if_neg hlen] at hc
        exact h c hc
    · rw [if_neg hcond] at hc
      exact h c hc

/-- C6 amended: every contour returned by `_find_contours` has at least 3
points — contours shorter than 3 points are discarded by the tracer stage
itself (by its `len(contour) >= 3` guard), not retained for downstream. -/
theorem find_contours_min_three_points (bw : List (List Bool))
    (c : List (Int × Int)) (hc : c ∈ find_contours bw) : 3 ≤ c.length := by
  unfold find_contours at hc
  exact findStep_fold_min_three (mkPadded bw) _ ([], []) (by simp) c hc

/-- Witness for `find_contours_min_three_points`: the boundary of a filled
2×2 raster is returned and has 4 ≥ 3 points. -/
theorem find_contours_min_three_points_witness :
    [((0 : Int), (0 : Int)), (1, 0), (1, 1), (0, 1)]
        ∈ find_contours [[true, true], [true, true]]
    ∧ 3 ≤ ([((0 : Int), (0 : Int)), (1, 0), (1, 1), (0, 1)] :
        List (Int × Int)).length :=
  ⟨by decide,
   find_contours_min_three_points [[true, true], [true, true]] _ (by decide)⟩

/- ═════════════ C5: Catmull-Rom segment count and endpoints ═════════════ -/

/-- C5 counterexample: on a concrete 8-point closed contour,
`_contour_to_svg_path` emits 7 cubic Bezier segments, not 8. -/
theorem contour_to_svg_path_eight_counterexample :
    ¬ ((contour_to_svg_path
        [(0, 0), (2, 0), (4, 0), (4, 2), (4, 4), (2, 4), (0, 4), (0, 2)]
      ).countP PathCmd.isCurve = 8) := by
  decide

/-- C5 amended: for every 8-point closed input the curve fitter emits a
move to point 0, then exactly 7 cubic segments — one per loop index
`i = 1..7` — whose nominal chord runs from point `i` to point
`(i+1) mod 8` (so the `C`-command endpoints are points `2,3,4,5,6,7,0`),
and a final close; the segment from point 0 to point 1 is never emitted. -/
theorem contour_to_svg_path_eight_points (a b c d e f g h : Pt) :
    contour_to_svg_path [a, b, c, d, e, f, g, h] =
      [PathCmd.move a,
       PathCmd.curve (b.1 + (c.1 - a.1) / 6, b.2 + (c.2 - a.2) / 6)
         (c.1 - (d.1 - b.1) / 6, c.2 - (d.2 - b.2) / 6) c,
       PathCmd.curve (c.1 + (d.1 - b.1) / 6, c.2 + (d.2 - b.2) / 6)
         (d.1 - (e.1 - c.1) / 6, d.2 - (e.2 - c.2) / 6) d,
       PathCmd.curve (d.1 + (e.1 - c.1) / 6, d.2 + (e.2 - c.2) / 6)
         (e.1 - (f.1 - d.1) / 6, e.2 - (f.2 - d.2) / 6) e,
       PathCmd.curve (e.1 + (f.1 - d.1) / 6, e.2 + (f.2 - d.2) / 6)
         (f.1 - (g.1 - e.1) / 6, f.2 - (g.2 - e.2) / 6) f,
       PathCmd.curve (f.1 + (g.1 - e.1) / 6, f.2 + (g.2 - e.2) / 6)
         (g.1 - (h.1 - f.1) / 6, g.2 - (h.2 - f.2) / 6) g,
       PathCmd.curve (g.1 + (h.1 - f.1) / 6, g.2 + (h.2 - f.2) / 6)
         (h.1 - (a.1 - g.1) / 6, h.2 - (a.2 - g.2) / 6) h,
       PathCmd.curve (h.1 + (a.1 - g.1) / 6, h.2 + (a.2 - g.2) / 6)
         (a.1 - (b.1 - h.1) / 6, a.2 - (b.2 - h.2) / 6) a,
       PathCmd.close] := by
  with_unfolding_all rfl

/- ═══════════ C3: outer + hole + island (3 concentric rings) ═══════════ -/

/-- C3: for three nested square contours (containment depths 0, 1, 2) the
classifier returns exactly 2 groups: the outermost contour with the middle
contour as its only hole, and the innermost contour alone with no holes. -/
theorem group_contours_nested_rings :
    group_contours_into_objects boxGeom
        [sqContour 0 10, sqContour 2 8, sqContour 4 6]
      = ([[sqContour 0 10, sqContour 2 8], [sqContour 4 6]], [[0, 1], [2]]) := by
  with_unfolding_all decide

/- ═══════ the classifier's parent scan: invariants ═══════ -/

/-- The validation predicate of step 1 of `_group_contours_into_objects`:
at least 4 coordinates, repaired polygon non-empty with area ≥ 0.01. -/
def passesValidation (G : GeomModel P) (c : Contour) : Bool :=
  decide (4 ≤ c.length)
    && !(G.isEmpty (G.mkPoly c) || decide (G.area (G.mkPoly c) < 1 / 100))

/-- Invariant of the parent scan: the accumulator is `none` when no
processed candidate contains the representative point, else the
minimal-area containing candidate among those processed. -/
def ScanInv (G : GeomModel P) (s : List (Nat × P)) (i : Nat)
    (processed : List Nat) : Option Nat → Prop
  | none => ∀ k ∈ processed, contAt G s k i = false
  | some j => j ∈ processed ∧ contAt G s j i = true
      ∧ ∀ k ∈ processed, contAt G s k i = true → areaAt G s j ≤ areaAt G s k

/-- One scan iteration preserves `ScanInv`. -/
lemma scanStep_inv (G : GeomModel P) (s : List (Nat × P)) (i : Nat)
    (processed : List Nat) (r : Option Nat) (j : Nat)
    (h : ScanInv G s i processed r) :
    ScanInv G s i (processed ++ [j]) (scanStep G s i r j) := by
  by_cases hc : contAt G s j i = true
  · cases r with
    | none =>
      rw [scanStep.eq_def, if_pos hc]
      refine ⟨List.mem_append_right _ (List.mem_singleton_self j), hc, ?_⟩
      intro k hk hck
      rcases List.mem_append.mp hk with hk1 | hk2
      · rw [h k hk1] at hck
        exact absurd hck (by simp)
      · rcases List.mem_singleton.mp hk2 with rfl
        exact le_refl _
    | some b =>
      obtain ⟨hbmem, hbc, hbmin⟩ := h
      rw [scanStep.eq_def, if_pos hc]
      show ScanInv G s i (processed ++ [j])
        (if areaAt G s j < areaAt G s b then some j else some b)
      by_cases harea : areaAt G s j < areaAt G s b
      · rw [if_pos harea]
        refine ⟨List.mem_append_right _ (List.mem_singleton_self j), hc, ?_⟩
        intro k hk hck
        rcases List.mem_append.mp hk with hk1 | hk2
        · exact le_trans (le_of_lt harea) (hbmin k hk1 hck)
        · rcases List.mem_singleton.mp hk2 with rfl
          exact le_refl _
      · rw [if_neg harea]
        refine ⟨List.mem_append_left _ hbmem, hbc, ?_⟩
        intro k hk hck
        rcases List.mem_append.mp hk with hk1 | hk2
        · exact hbmin k hk1 hck
        · rcases List.mem_singleton.mp hk2 with rfl
          exact le_of_not_lt harea
  · rw [scanStep.eq_def, if_neg hc]
    cases r with
    | none =>
      intro k hk
      rcases List.mem_append.mp hk with hk1 | hk2
      · exact h k hk1
      · rcases List.mem_singleton.mp hk2 with rfl
        exact Bool.eq_false_iff.mpr hc
    | some b =>
      obtain ⟨hbmem, hbc, hbmin⟩ := h
      refine ⟨List.mem_append_left _ hbmem, hbc, ?_⟩
      intro k hk hck
      rcases List.mem_append.mp hk with hk1 | hk2
      · exact hbmin k hk1 hck
      · rcases List.mem_singleton.mp hk2 with rfl
        exact absurd hck hc

/-- The scan fold preserves `ScanInv` along any candidate list. -/
lemma scanFold_inv (G : GeomModel P) (s : List (Nat × P)) (i : Nat) :
    ∀ (l : List Nat) (r : Option Nat) (processed : List Nat),
      ScanInv G s i processed r →
      ScanInv G s i (processed ++ l) (l.foldl (scanStep G s i) r) := by
  intro l
  induction l with
  | nil => intro r processed h; simpa using h
  | cons j l ih =>
    intro r processed h
    rw [List.foldl_cons]
    have h2 := ih (scanStep G s i r j) (processed ++ [j]) (scanStep_inv G s i processed r j h)
    simpa [List.append_assoc] using h2

/-- `ScanInv` holds of the finished scan `bestParent i`, with processed
candidates `range i` (in reversed scan order). -/
lemma bestParent_inv (G : GeomModel P) (s : List (Nat × P)) (i : Nat) :
    ScanInv G s i (List.range i).reverse (bestParent G s i) := by
  have h := scanFold_inv G s i (List.range i).reverse none []
    (by intro k hk; simp at hk)
  simpa [bestParent] using h

/- ═══════ sortedness, depth equations ═══════ -/

/-- The stable descending sort of step 2 yields a list sorted by
non-increasing area. -/
lemma sortedItems_sorted (G : GeomModel P) (contours : List Contour) :
    List.Sorted (fun a b => G.area b.2 ≤ G.area a.2)
      (sortedItems G contours) := by
  haveI : IsTotal (Nat × P) (fun a b => G.area b.2 ≤ G.area a.2) :=
    ⟨fun a b => le_total _ _⟩
  haveI : IsTrans (Nat × P) (fun a b => G.area b.2 ≤ G.area a.2) :=
    ⟨fun a b c h1 h2 => le_trans h2 h1⟩
  exact List.sorted_insertionSort _ _

/-- Later sorted positions have smaller-or-equal area. -/
lemma areaAt_antitone (G : GeomModel P) (contours : List Contour)
    (j i : Nat) (hj : j < i)
    (hi : i < (sortedItems G contours).length) :
    areaAt G (sortedItems G contours) i ≤ areaAt G (sortedItems G contours) j := by
  have hs := sortedItems_sorted G contours
  have hr := List.Sorted.rel_get_of_lt hs
    (show (⟨j, lt_trans hj hi⟩ : Fin (sortedItems G contours).length)
      < ⟨i, hi⟩ from hj)
  unfold areaAt
  rw [List.getD_eq_getElem _ _ hi, List.getD_eq_getElem _ _ (lt_trans hj hi)]
  simpa using hr

/-- A parent position is strictly smaller than its child's. -/
lemma bestParent_lt (G : GeomModel P) (s : List (Nat × P)) (i j : Nat)
    (h : bestParent G s i = some j) : j < i := by
  have inv := bestParent_inv G s i
  rw [h] at inv
  exact List.mem_range.mp (List.mem_reverse.mp inv.1)

/-- Depth of a root. -/
lemma depthOf_none (parent : Nat → Option Nat) (i : Nat)
    (h : parent i = none) : depthOf parent i = 0 := by
  cases i with
  | zero => rfl
  | succ m =>
    unfold depthOf depthAux
    rw [h]

/-- With a decreasing parent map, `depthAux` is fuel-irrelevant above the
argument. -/
lemma depthAux_congr (parent : Nat → Option Nat)
    (hdec : ∀ i j, parent i = some j → j < i) :
    ∀ (i f₁ f₂ : Nat), i ≤ f₁ → i ≤ f₂ →
      depthAux parent f₁ i = depthAux parent f₂ i := by
  intro i
  induction i using Nat.strong_induction_on with
  | _ i ih =>
    intro f₁ f₂ h1 h2
    cases hp : parent i with
    | none =>
      cases f₁ <;> cases f₂ <;> simp only [depthAux, hp]
    | some p =>
      have hpi : p < i := hdec i p hp
      cases f₁ with
      | zero => omega
      | succ m₁ => cases f₂ with
        | zero => omega
        | succ m₂ =>
          simp only [depthAux, hp]
          rw [ih p hpi m₁ m₂ (by omega) (by omega)]

/-- Depth of a child: one more than its parent's depth. -/
lemma depthOf_some (parent : Nat → Option Nat)
    (hdec : ∀ i j, parent i = some j → j < i) (i p : Nat)
    (h : parent i = some p) : depthOf parent i = depthOf parent p + 1 := by
  have hpi : p < i := hdec i p h
  cases i with
  | zero => omega
  | succ m =>
    show depthAux parent (m + 1) (m + 1) = depthAux parent p p + 1
    simp only [depthAux, h]
    rw [depthAux_congr parent hdec p m p (by omega) (le_refl p)]

/- ═══════ C2: nearest enclosing ancestor ═══════ -/

/-- C2: after the descending-area sort, `bestParent` assigns to position
`i`, among the earlier-sorted positions (of larger-or-equal area) whose
polygon contains `i`'s representative point, one of minimal area; when no
earlier polygon contains the point, no parent is assigned and the depth
is 0 (root). -/
theorem bestParent_smallest_enclosing (G : GeomModel P)
    (contours : List Contour) (i : Nat)
    (hi : i < (sortedItems G contours).length) :
    (∀ j, bestParent G (sortedItems G contours) i = some j →
      j < i
      ∧ contAt G (sortedItems G contours) j i = true
      ∧ areaAt G (sortedItems G contours) i
          ≤ areaAt G (sortedItems G contours) j
      ∧ ∀ k, k < i → contAt G (sortedItems G contours) k i = true →
          areaAt G (sortedItems G contours) j
            ≤ areaAt G (sortedItems G contours) k)
    ∧ (bestParent G (sortedItems G contours) i = none →
        (∀ k, k < i → contAt G (sortedItems G contours) k i = false)
        ∧ depthOf (bestParent G (sortedItems G contours)) i = 0) := by
  constructor
  · intro j hj
    have inv := bestParent_inv G (sortedItems G contours) i
    rw [hj] at inv
    obtain ⟨hmem, hcont, hmin⟩ := inv
    have hji : j < i := List.mem_range.mp (List.mem_reverse.mp hmem)
    refine ⟨hji, hcont, areaAt_antitone G contours j i hji hi, ?_⟩
    intro k hk hck
    exact hmin k (List.mem_reverse.mpr (List.mem_range.mpr hk)) hck
  · intro hnone
    have inv := bestParent_inv G (sortedItems G contours) i
    rw [hnone] at inv
    refine ⟨?_, depthOf_none _ i hnone⟩
    intro k hk
    exact inv k (List.mem_reverse.mpr (List.mem_range.mpr hk))

/-- Witness for `bestParent_smallest_enclosing` on the three nested
squares: the island's parent is the hole (the smallest containing
candidate), not the outer. -/
theorem bestParent_smallest_enclosing_witness :
    1 < 2
    ∧ contAt boxGeom
        (sortedItems boxGeom [sqContour 0 10, sqContour 2 8, sqContour 4 6])
        1 2 = true
    ∧ areaAt boxGeom
        (sortedItems boxGeom [sqContour 0 10, sqContour 2 8, sqContour 4 6]) 2
      ≤ areaAt boxGeom
        (sortedItems boxGeom [sqContour 0 10, sqContour 2 8, sqContour 4 6]) 1 := by
  have h := (bestParent_smallest_enclosing boxGeom
      [sqContour 0 10, sqContour 2 8, sqContour 4 6] 2
      (by with_unfolding_all decide)).1 1 (by with_unfolding_all decide)
  exact ⟨h.1, h.2.1, h.2.2.1⟩

/- ═══════ valid-item indices: distinctness and membership ═══════ -/

/-- A `filterMap` that preserves first components yields a sublist of the
first components. -/
lemma filterMap_fst_sublist {α β : Type} (l : List (Nat × α))
    (f : Nat × α → Option (Nat × β))
    (hf : ∀ a b, f a = some b → b.1 = a.1) :
    ((l.filterMap f).map Prod.fst).Sublist (l.map Prod.fst) := by
  induction l with
  | nil => simp
  | cons a l ih =>
    rw [List.filterMap_cons]
    cases hfa : f a with
    | none =>
      rw [List.map_cons]
      exact ih.cons a.1
    | some b =>
      rw [List.map_cons, List.map_cons, hf a b hfa]
      exact ih.cons₂ a.1

/-- The original indices surviving validation are pairwise distinct. -/
lemma validItems_fst_nodup (G : GeomModel P) (contours : List Contour) :
    ((validItems G contours).map Prod.fst).Nodup := by
  have hsub : ((validItems G contours).map Prod.fst).Sublist
      (contours.enum.map Prod.fst) := by
    apply filterMap_fst_sublist
    intro a b hab
    by_cases h4 : a.2.length < 4
    · rw [if_pos h4] at hab
      exact absurd hab (by simp)
    · rw [if_neg h4] at hab
      by_cases he : (G.isEmpty (G.mkPoly a.2)
          || decide (G.area (G.mkPoly a.2) < 1 / 100)) = true
      · rw [if_pos he] at hab
        exact absurd hab (by simp)
      · rw [if_neg he] at hab
        cases hab
        rfl
  rw [List.enum_map_fst] at hsub
  exact hsub.nodup (List.nodup_range _)

/-- An original index appears among the valid items exactly when its
contour passes validation. -/
lemma mem_validItems_iff (G : GeomModel P) (contours : List Contour)
    (i : Nat) :
    i ∈ (validItems G contours).map Prod.fst
      ↔ i < contours.length
        ∧ passesValidation G (contours.getD i []) = true := by
  constructor
  · intro h
    rcases List.mem_map.mp h with ⟨b, hb, hb1⟩
    rcases List.mem_filterMap.mp hb with ⟨a, ha, hfa⟩
    have ha' := List.mem_enum_iff_getElem?.mp ha
    rw [List.getElem?_eq_some_iff] at ha'
    obtain ⟨hlt, hget⟩ := ha'
    by_cases h4 : a.2.length < 4
    · rw [if_pos h4] at hfa
      exact absurd hfa (by simp)
    · rw [if_neg h4] at hfa
      by_cases he : (G.isEmpty (G.mkPoly a.2)
          || decide (G.area (G.mkPoly a.2) < 1 / 100)) = true
      · rw [if_pos he] at hfa
        exact absurd hfa (by simp)
      · rw [if_neg he] at hfa
        cases hfa
        rw [← hb1]
        refine ⟨hlt, ?_⟩
        rw [List.getD_eq_getElem _ _ hlt, hget]
        unfold passesValidation
        rw [Bool.eq_false_iff.mpr he]
        simp
        omega
  · intro ⟨hi, hp⟩
    unfold passesValidation at hp
    rw [Bool.and_eq_true] at hp
    obtain ⟨hp1, hp2⟩ := hp
    have h4 : ¬ (contours.getD i []).length < 4 := by
      have := of_decide_eq_true hp1
      omega
    have he : ¬ (G.isEmpty (G.mkPoly (contours.getD i []))
        || decide (G.area (G.mkPoly (contours.getD i [])) < 1 / 100)) = true := by
      simpa using hp2
    refine List.mem_map.mpr
      ⟨(i, G.mkPoly (contours.getD i [])), ?_, rfl⟩
    refine List.mem_filterMap.mpr ⟨(i, contours.getD i []), ?_, ?_⟩
    · refine List.mem_enum_iff_getElem?.mpr ?_
      rw [List.getElem?_eq_some_iff]
      exact ⟨hi, (List.getD_eq_getElem _ _ hi).symm⟩
    · rw [if_neg h4, if_neg he]

/- ═══════ counting helpers ═══════ -/

/-- A sum of mapped values that vanish off a single distinguished member. -/
lemma sum_map_single (l : List Nat) (g : Nat → Nat) (a : Nat)
    (hnd : l.Nodup) (ha : a ∈ l) (hz : ∀ b ∈ l, b ≠ a → g b = 0) :
    (l.map g).sum = g a := by
  induction l with
  | nil => cases ha
  | cons b l ih =>
    rw [List.map_cons, List.sum_cons]
    rcases List.mem_cons.mp ha with rfl | hal
    · have hzl : ∀ x ∈ l.map g, x = 0 := by
        intro x hx
        rcases List.mem_map.mp hx with ⟨c, hc, rfl⟩
        exact hz c (List.mem_cons_of_mem _ hc)
          (fun hca => (List.nodup_cons.mp hnd).1 (hca ▸ hc))
      rw [List.sum_eq_zero hzl]
      omega
    · have hb : b ≠ a := fun h => (List.nodup_cons.mp hnd).1 (h ▸ hal)
      rw [hz b (List.mem_cons_self b l) hb,
        ih (List.nodup_cons.mp hnd).2 hal
          (fun x hx hxa => hz x (List.mem_cons_of_mem b hx) hxa)]
      omega

/-- Counting through a map that is injective at the counted value. -/
lemma count_map_of_inj_at (l : List Nat) (f : Nat → Nat) (a : Nat)
    (hinj : ∀ b ∈ l, f b = f a → b = a) :
    (l.map f).count (f a) = l.count a := by
  induction l with
  | nil => rfl
  | cons b l ih =>
    rw [List.map_cons, List.count_cons, List.count_cons,
      ih (fun x hx => hinj x (List.mem_cons_of_mem b hx))]
    congr 1
    by_cases hba : b = a
    · subst hba
      simp
    · have hfb : f b ≠ f a :=
        fun h => hba (hinj b (List.mem_cons_self b l) h)
      simp [hba, hfb]

/-- Counting in the flatten of head-cons-holes entries splits into a head
count and a holes count. -/
lemma count_flatten_cons_split {α : Type} (v : Nat) (f : α → Nat)
    (g : α → List Nat) :
    ∀ l : List α,
      ((l.map fun e => f e :: g e).flatten).count v
        = (l.map f).count v + ((l.map g).flatten).count v := by
  intro l
  induction l with
  | nil => rfl
  | cons a l ih =>
    rw [List.map_cons, List.flatten_cons, List.count_append, ih,
      List.map_cons, List.count_cons, List.map_cons, List.flatten_cons,
      List.count_append, List.count_cons]
    omega

/- ═══════ closed form of the groups map ═══════ -/

/-- An odd-depth node has a parent of even depth. -/
lemma depthOf_odd_parent (parent : Nat → Option Nat)
    (hdec : ∀ i j, parent i = some j → j < i) (i : Nat)
    (h : depthOf parent i % 2 = 1) :
    ∃ p, parent i = some p ∧ depthOf parent p % 2 = 0 := by
  cases hp : parent i with
  | none =>
    rw [depthOf_none parent i hp] at h
    omega
  | some p =>
    rw [depthOf_some parent hdec i p hp] at h
    exact ⟨p, rfl, by omega⟩

/-- Closed form of step 4 of `_group_contours_into_objects`: after the
whole fold, the groups map lists the even-depth positions in ascending
order, each carrying exactly its odd-depth children (also ascending). -/
lemma groupsMap_closed (parent : Nat → Option Nat) (dep : Nat → Nat)
    (hdec : ∀ i j, parent i = some j → j < i)
    (hodd : ∀ i, dep i % 2 = 1 → ∃ p, parent i = some p ∧ dep p % 2 = 0)
    (hpar : ∀ i, dep i % 2 = 0 ∨ dep i % 2 = 1) :
    ∀ n, groupsMap parent dep n
      = ((List.range n).filter fun k => dep k % 2 = 0).map
          fun k => (k, (List.range n).filter
            fun j => dep j % 2 = 1 ∧ parent j = some k) := by
  intro n
  induction n with
  | zero => rfl
  | succ n ih =>
    have h1 : groupsMap parent dep (n + 1)
        = groupsMapStep parent dep (groupsMap parent dep n) n := by
      rw [groupsMap, groupsMap, List.range_succ, List.foldl_concat]
    rw [h1, ih]
    by_cases he : dep n % 2 = 0
    · rw [groupsMapStep, if_pos he]
      simp only [List.range_succ, List.filter_append, List.map_append]
      have hfn : (List.filter (fun k => decide (dep k % 2 = 0)) [n]) = [n] := by
        simp [he]
      have hfh : ∀ k, (List.filter
          (fun j => decide (dep j % 2 = 1 ∧ parent j = some k)) [n])
          = [] := by
        intro k
        simp [he]
      have hhn : (List.filter
          (fun j => decide (dep j % 2 = 1 ∧ parent j = some n))
          (List.range n)) = [] := by
        rw [List.filter_eq_nil_iff]
        intro j hj
        have hjn : j < n := List.mem_range.mp hj
        simp only [decide_eq_true_eq, not_and]
        intro _ hpj
        exact absurd (hdec j n hpj) (by omega)
      rw [hfn]
      congr 1
      · apply List.map_congr_left
        intro k hk
        rw [hfh k]
        simp
      · rw [List.map_cons]
        rw [hfh n, hhn]
        rfl
    · have ho : dep n % 2 = 1 := by
        rcases hpar n with h | h
        · omega
        · exact h
      obtain ⟨p, hp, hpe⟩ := hodd n ho
      have hpn : p < n := hdec n p hp
      have hany : (((List.range n).filter fun k => dep k % 2 = 0).map
          (fun k => (k, (List.range n).filter
            fun j => dep j % 2 = 1 ∧ parent j = some k))).any
          (fun e => e.1 = p) = true := by
        apply List.any_eq_true.mpr
        refine ⟨(p, (List.range n).filter
          fun j => dep j % 2 = 1 ∧ parent j = some p), ?_, by simp⟩
        apply List.mem_map.mpr
        refine ⟨p, ?_, rfl⟩
        apply List.mem_filter.mpr
        exact ⟨List.mem_range.mpr hpn, by simp [hpe]⟩
      simp only [groupsMapStep, hp, he, if_false, hany, if_true]
      simp only [List.range_succ, List.filter_append, List.map_append,
        List.map_map]
      have hfn : (List.filter (fun k => decide (dep k % 2 = 0)) [n]) = [] := by
        simp [ho]
      rw [hfn]
      simp only [List.map_nil, List.append_nil]
      apply List.map_congr_left
      intro k hk
      have hk' : k < n :=
        List.mem_range.mp (List.mem_filter.mp hk).1
      simp only [Function.comp]
      by_cases hkp : k = p
      · subst hkp
        have hsing : (List.filter
            (fun j => decide (dep j % 2 = 1 ∧ parent j = some k)) [n])
            = [n] := by
          simp [ho, hp]
        rw [hsing]
        simp
      · have hsing : (List.filter
            (fun j => decide (dep j % 2 = 1 ∧ parent j = some k)) [n])
            = [] := by
          have : ¬ (some p = some k) := by
            simpa using fun h => hkp h.symm
          simp [ho, hp, this]
        rw [hsing]
        simp [hkp]

/- ═══════ position counts in the groups map ═══════ -/

/-- `countP` of a decidable equality is `count`. -/
lemma countP_decide_eq_count (l : List Nat) (v : Nat) :
    l.countP (fun k => decide (k = v)) = l.count v := by
  apply List.countP_congr
  intro x _
  simp

/-- Each position `v < n` occurs as a key of the groups map exactly when
its depth is even, and then exactly once. -/
lemma groupsMap_key_countP (parent : Nat → Option Nat) (dep : Nat → Nat)
    (hdec : ∀ i j, parent i = some j → j < i)
    (hodd : ∀ i, dep i % 2 = 1 → ∃ p, parent i = some p ∧ dep p % 2 = 0)
    (hpar : ∀ i, dep i % 2 = 0 ∨ dep i % 2 = 1)
    (n v : Nat) (hv : v < n) :
    (groupsMap parent dep n).countP (fun e => e.1 = v)
      = if dep v % 2 = 0 then 1 else 0 := by
  rw [groupsMap_closed parent dep hdec hodd hpar n, List.countP_map]
  have hcongr : ((List.range n).filter fun k => dep k % 2 = 0).countP
      ((fun (e : Nat × List Nat) => decide (e.1 = v))
        ∘ fun k => (k, (List.range n).filter
          fun j => dep j % 2 = 1 ∧ parent j = some k))
      = ((List.range n).filter fun k => dep k % 2 = 0).countP
        (fun k => decide (k = v)) := by
    apply List.countP_congr
    intro x _
    simp [Function.comp]
  rw [hcongr, countP_decide_eq_count]
  have hnd : ((List.range n).filter fun k => dep k % 2 = 0).Nodup :=
    (List.nodup_range n).filter _
  by_cases hve : dep v % 2 = 0
  · rw [if_pos hve]
    exact List.count_eq_one_of_mem hnd
      (List.mem_filter.mpr ⟨List.mem_range.mpr hv, by simp [hve]⟩)
  · rw [if_neg hve]
    apply List.count_eq_zero.mpr
    intro hmem
    exact hve (by simpa using (List.mem_filter.mp hmem).2)

/-- Each position `v < n` occurs in the holes of the groups map exactly
when its depth is odd, and then exactly once (in its parent's entry). -/
lemma groupsMap_hole_count (parent : Nat → Option Nat) (dep : Nat → Nat)
    (hdec : ∀ i j, parent i = some j → j < i)
    (hodd : ∀ i, dep i % 2 = 1 → ∃ p, parent i = some p ∧ dep p % 2 = 0)
    (hpar : ∀ i, dep i % 2 = 0 ∨ dep i % 2 = 1)
    (n v : Nat) (hv : v < n) :
    (((groupsMap parent dep n).map fun e => e.2).flatten).count v
      = if dep v % 2 = 1 then 1 else 0 := by
  rw [groupsMap_closed parent dep hdec hodd hpar n, List.map_map,
    List.count_flatten, List.map_map]
  have hnd : ((List.range n).filter fun k => dep k % 2 = 0).Nodup :=
    (List.nodup_range n).filter _
  by_cases hvo : dep v % 2 = 1
  · obtain ⟨p, hp, hpe⟩ := hodd v hvo
    have hpv : p < v := hdec v p hp
    rw [if_pos hvo]
    have hsum := sum_map_single
      ((List.range n).filter fun k => dep k % 2 = 0)
      (fun k => (((List.range n).filter
        fun j => dep j % 2 = 1 ∧ parent j = some k)).count v)
      p hnd
      (List.mem_filter.mpr ⟨List.mem_range.mpr (by omega), by simp [hpe]⟩)
      ?_
    · simp only [Function.comp_def]
      rw [hsum]
      apply List.count_eq_one_of_mem ((List.nodup_range n).filter _)
      exact List.mem_filter.mpr
        ⟨List.mem_range.mpr hv, by simp [hvo, hp]⟩
    · intro b _ hbp
      apply List.count_eq_zero.mpr
      intro hmem
      have h2 := (List.mem_filter.mp hmem).2
      simp only [decide_eq_true_eq] at h2
      rw [hp] at h2
      exact hbp (Option.some.injEq _ _ ▸ h2.2).symm
  · rw [if_neg hvo]
    apply List.sum_eq_zero
    intro x hx
    rcases List.mem_map.mp hx with ⟨k, _, rfl⟩
    apply List.count_eq_zero.mpr
    intro hmem
    have h2 := (List.mem_filter.mp hmem).2
    simp only [decide_eq_true_eq] at h2
    exact hvo h2.1

/- ═══════ counts through the final assembly ═══════ -/

/-- Keys and holes of the groups map are positions below `n`. -/
lemma groupsMap_mem_lt (parent : Nat → Option Nat) (dep : Nat → Nat)
    (hdec : ∀ i j, parent i = some j → j < i)
    (hodd : ∀ i, dep i % 2 = 1 → ∃ p, parent i = some p ∧ dep p % 2 = 0)
    (hpar : ∀ i, dep i % 2 = 0 ∨ dep i % 2 = 1) (n : Nat) :
    ∀ e ∈ groupsMap parent dep n, e.1 < n ∧ ∀ x ∈ e.2, x < n := by
  rw [groupsMap_closed parent dep hdec hodd hpar n]
  intro e he
  rcases List.mem_map.mp he with ⟨k, hk, rfl⟩
  exact ⟨List.mem_range.mp (List.mem_filter.mp hk).1,
    fun x hx => List.mem_range.mp (List.mem_filter.mp hx).1⟩

/-- The classifier's groups map is already sorted by key, so the final
`sorted(groups_map.keys())` pass is the identity. -/
lemma groupsMap_sorted_keys (parent : Nat → Option Nat) (dep : Nat → Nat)
    (hdec : ∀ i j, parent i = some j → j < i)
    (hodd : ∀ i, dep i % 2 = 1 → ∃ p, parent i = some p ∧ dep p % 2 = 0)
    (hpar : ∀ i, dep i % 2 = 0 ∨ dep i % 2 = 1) (n : Nat) :
    List.Sorted (fun a b : Nat × List Nat => a.1 ≤ b.1)
      (groupsMap parent dep n) := by
  rw [groupsMap_closed parent dep hdec hodd hpar n]
  apply List.pairwise_map.mpr
  exact List.Pairwise.imp (fun h => le_of_lt h)
    (List.Pairwise.sublist (List.filter_sublist _) (List.pairwise_lt_range n))

/-- Specialization of `count_flatten_cons_split` to assembled index
groups. -/
lemma count_flatten_entry (v : Nat) (orig : Nat → Nat) :
    ∀ gm : List (Nat × List Nat),
      ((gm.map fun e => orig e.1 :: e.2.map orig).flatten).count v
        = (gm.map fun e => orig e.1).count v
          + ((gm.map fun e => e.2.map orig).flatten).count v := by
  intro gm
  induction gm with
  | nil => rfl
  | cons a l ih =>
    rw [List.map_cons, List.flatten_cons, List.count_append, ih,
      List.map_cons, List.count_cons, List.map_cons, List.flatten_cons,
      List.count_append, List.count_cons]
    omega

/-- Count bookkeeping through the assembled index groups: each position
below `n` contributes its original index exactly once, as a group head when
its depth is even and as a hole when odd. -/
lemma assemble_partition (parent : Nat → Option Nat) (dep : Nat → Nat)
    (hdec : ∀ i j, parent i = some j → j < i)
    (hodd : ∀ i, dep i % 2 = 1 → ∃ p, parent i = some p ∧ dep p % 2 = 0)
    (hpar : ∀ i, dep i % 2 = 0 ∨ dep i % 2 = 1)
    (n : Nat) (orig : Nat → Nat) (v pos : Nat)
    (hposn : pos < n) (hvorig : orig pos = v)
    (hinj : ∀ b, b < n → orig b = orig pos → b = pos) :
    ((((groupsMap parent dep n).map fun e => orig e.1 :: e.2.map orig)
        ).flatten).count v = 1
    ∧ ((groupsMap parent dep n).map fun e => orig e.1 :: e.2.map orig
        ).countP (fun g => g.head? = some v)
      + ((((groupsMap parent dep n).map fun e => orig e.1 :: e.2.map orig
          ).map (List.drop 1)).flatten).count v = 1 := by
  have hmlt := groupsMap_mem_lt parent dep hdec hodd hpar n
  -- heads as a count over the keys
  have hkeys : ((groupsMap parent dep n).map fun e => orig e.1).count v
      = if dep pos % 2 = 0 then 1 else 0 := by
    have hmm : (groupsMap parent dep n).map (fun e => orig e.1)
        = ((groupsMap parent dep n).map fun e => e.1).map orig := by
      rw [List.map_map]
      rfl
    rw [hmm, ← hvorig]
    rw [count_map_of_inj_at _ orig pos
      (fun b hb => hinj b
        (by rcases List.mem_map.mp hb with ⟨e, he, rfl⟩; exact (hmlt e he).1))]
    have hcc : ((groupsMap parent dep n).map fun e => e.1).count pos
        = (groupsMap parent dep n).countP fun e => decide (e.1 = pos) := by
      rw [← countP_decide_eq_count, List.countP_map]
      apply List.countP_congr
      intro x _
      simp [Function.comp]
    rw [hcc]
    exact groupsMap_key_countP parent dep hdec hodd hpar n pos hposn
  -- holes as a count over the flattened hole lists
  have hholes : ((((groupsMap parent dep n).map fun e => e.2.map orig)
      ).flatten).count v = if dep pos % 2 = 1 then 1 else 0 := by
    have hmm : (groupsMap parent dep n).map (fun e => e.2.map orig)
        = ((groupsMap parent dep n).map fun e => e.2).map (List.map orig) := by
      rw [List.map_map]
      rfl
    rw [hmm, ← List.map_flatten, ← hvorig]
    rw [count_map_of_inj_at _ orig pos
      (fun b hb => hinj b (by
        rcases List.mem_flatten.mp hb with ⟨l, hl, hbl⟩
        rcases List.mem_map.mp hl with ⟨e, he, rfl⟩
        exact (hmlt e he).2 b hbl))]
    exact groupsMap_hole_count parent dep hdec hodd hpar n pos hposn
  constructor
  · rw [count_flatten_entry v orig (groupsMap parent dep n), hkeys, hholes]
    rcases hpar pos with h | h <;> simp [h]
  · have hheads : ((groupsMap parent dep n).map fun e => orig e.1 :: e.2.map orig
        ).countP (fun g => g.head? = some v)
        = if dep pos % 2 = 0 then 1 else 0 := by
      rw [List.countP_map]
      have : (groupsMap parent dep n).countP
          ((fun (g : List Nat) => decide (g.head? = some v))
            ∘ fun e => orig e.1 :: e.2.map orig)
          = (groupsMap parent dep n).countP fun e => decide (e.1 = pos) := by
        apply List.countP_congr
        intro e he
        simp only [Function.comp, List.head?_cons, decide_eq_true_eq,
          Option.some.injEq]
        constructor
        · intro h
          exact hinj e.1 (hmlt e he).1 (by rw [h, hvorig])
        · intro h
          rw [h, hvorig]
      rw [this]
      exact groupsMap_key_countP parent dep hdec hodd hpar n pos hposn
    have hdrop : (((groupsMap parent dep n).map
          fun e => orig e.1 :: e.2.map orig).map (List.drop 1))
        = (groupsMap parent dep n).map fun e => e.2.map orig := by
      rw [List.map_map]
      apply List.map_congr_left
      intro e _
      simp
    rw [hheads, hdrop, hholes]
    rcases hpar pos with h | h <;> simp [h]

/- ═══════ the classifier's main branch ═══════ -/

/-- Unfolding of `_group_contours_into_objects` past its short-circuit
branches. -/
lemma group_contours_eq_main (G : GeomModel P) (contours : List Contour)
    (h2 : ¬ contours.length ≤ 1)
    (hne : (validItems G contours).isEmpty = false) :
    group_contours_into_objects G contours
      = assembleGroups contours (sortedItems G contours) G.dflt
          (groupsMap (bestParent G (sortedItems G contours))
            (depthOf (bestParent G (sortedItems G contours)))
            (sortedItems G contours).length) := by
  unfold group_contours_into_objects
  rw [if_neg h2, if_neg (by simp [hne])]

/-- The index component of the assembly over a key-sorted groups map. -/
lemma assembleGroups_snd (contours : List Contour) (s : List (Nat × P))
    (dfltP : P) (gm : List (Nat × List Nat))
    (hsorted : List.Sorted (fun a b : Nat × List Nat => a.1 ≤ b.1) gm) :
    (assembleGroups contours s dfltP gm).2
      = gm.map fun e =>
          (s.getD e.1 (0, dfltP)).1 :: e.2.map fun hp => (s.getD hp (0, dfltP)).1 := by
  simp only [assembleGroups]
  rw [List.Sorted.insertionSort_eq hsorted]

/-- The contour groups are exactly the index groups looked up in the input
list. -/
lemma assembleGroups_fst_eq (contours : List Contour) (s : List (Nat × P))
    (dfltP : P) (gm : List (Nat × List Nat)) :
    (assembleGroups contours s dfltP gm).1
      = (assembleGroups contours s dfltP gm).2.map
          (List.map fun k => contours.getD k []) := by
  simp only [assembleGroups]
  rw [List.map_map]
  apply List.map_congr_left
  intro e _
  simp [Function.comp_def]

/- ═══════ C1: every valid contour in exactly one group ═══════ -/

/-- C1: each input contour that passes polygon validation contributes its
index exactly once to the union of the returned groups — as the head
(outer) of exactly one group or inside the tail (holes) of exactly one
group, never both and never twice — and the contour groups are exactly the
index groups looked up in the input. -/
theorem group_contours_partition (G : GeomModel P) (contours : List Contour)
    (i : Nat) (hi : i < contours.length)
    (hv : passesValidation G (contours.getD i []) = true) :
    (group_contours_into_objects G contours).2.flatten.count i = 1
    ∧ (group_contours_into_objects G contours).2.countP
        (fun g => g.head? = some i)
      + ((group_contours_into_objects G contours).2.map
          (List.drop 1)).flatten.count i = 1
    ∧ (group_contours_into_objects G contours).1
      = (group_contours_into_objects G contours).2.map
          (List.map fun k => contours.getD k []) := by
  by_cases h2 : contours.length ≤ 1
  · have h1 : contours.length = 1 := by omega
    obtain ⟨c, rfl⟩ := List.length_eq_one.mp h1
    have hi0 : i = 0 := by
      simp only [List.length_singleton] at hi
      omega
    subst hi0
    unfold group_contours_into_objects
    rw [if_pos h2, if_neg (by simp)]
    refine ⟨?_, ?_, ?_⟩
    · show List.count 0 ([[0]] : List (List Nat)).flatten = 1
      decide
    · show List.countP (fun g => decide (g.head? = some 0))
          ([[0]] : List (List Nat))
        + List.count 0 (List.map (List.drop 1)
          ([[0]] : List (List Nat))).flatten = 1
      decide
    · show [[c]] = List.map (List.map fun k => [c].getD k [])
        ([[0]] : List (List Nat))
      simp
  · have hvmem : i ∈ (validItems G contours).map Prod.fst :=
      (mem_validItems_iff G contours i).mpr ⟨hi, hv⟩
    have hne : (validItems G contours).isEmpty = false := by
      cases hval : validItems G contours with
      | nil => rw [hval] at hvmem; simp at hvmem
      | cons a l => rfl
    rw [group_contours_eq_main G contours h2 hne]
    have hdec : ∀ a b,
        bestParent G (sortedItems G contours) a = some b → b < a :=
      fun a b h => bestParent_lt G (sortedItems G contours) a b h
    have hodd := fun a h =>
      depthOf_odd_parent (bestParent G (sortedItems G contours)) hdec a h
    have hpar : ∀ a,
        depthOf (bestParent G (sortedItems G contours)) a % 2 = 0
        ∨ depthOf (bestParent G (sortedItems G contours)) a % 2 = 1 :=
      fun a => Nat.mod_two_eq_zero_or_one _
    have hsorted := groupsMap_sorted_keys _ _ hdec hodd hpar
      (sortedItems G contours).length
    rw [assembleGroups_fst_eq contours (sortedItems G contours) G.dflt _,
      assembleGroups_snd contours (sortedItems G contours) G.dflt _ hsorted]
    have hperm : ((sortedItems G contours).map Prod.fst).Perm
        ((validItems G contours).map Prod.fst) :=
      (List.perm_insertionSort _ _).map _
    have hnodup : ((sortedItems G contours).map Prod.fst).Nodup :=
      hperm.nodup_iff.mpr (validItems_fst_nodup G contours)
    have hmem_s : i ∈ (sortedItems G contours).map Prod.fst :=
      hperm.mem_iff.mpr hvmem
    obtain ⟨pos, hposlt, hpos⟩ := List.mem_iff_getElem.mp hmem_s
    have hposn : pos < (sortedItems G contours).length := by
      simpa using hposlt
    have horigpos :
        ((sortedItems G contours).getD pos (0, G.dflt)).1 = i := by
      rw [List.getD_eq_getElem _ _ hposn, ← hpos, List.getElem_map]
    have hinj : ∀ b, b < (sortedItems G contours).length →
        ((sortedItems G contours).getD b (0, G.dflt)).1
          = ((sortedItems G contours).getD pos (0, G.dflt)).1 → b = pos := by
      intro b hb heq
      rw [List.getD_eq_getElem _ _ hb, List.getD_eq_getElem _ _ hposn] at heq
      have hb' : b < ((sortedItems G contours).map Prod.fst).length := by
        simpa using hb
      have hpos' : pos < ((sortedItems G contours).map Prod.fst).length := by
        simpa using hposn
      have h1 : ((sortedItems G contours).map Prod.fst).get ⟨b, hb'⟩
          = ((sortedItems G contours).map Prod.fst).get ⟨pos, hpos'⟩ := by
        simp only [List.get_eq_getElem, List.getElem_map]
        exact heq
      exact hnodup.getElem_inj_iff.mp
        (by simpa only [List.get_eq_getElem] using h1)
    have hmain := assemble_partition
      (bestParent G (sortedItems G contours))
      (depthOf (bestParent G (sortedItems G contours)))
      hdec hodd hpar (sortedItems G contours).length
      (fun k => ((sortedItems G contours).getD k (0, G.dflt)).1)
      i pos hposn horigpos hinj
    exact ⟨hmain.1, hmain.2, rfl⟩

/-- Witness for `group_contours_partition`: the middle square of the
nested-rings input is valid and its index 1 appears exactly once in the
returned groups. -/
theorem group_contours_partition_witness :
    1 < ([sqContour 0 10, sqContour 2 8, sqContour 4 6] : List Contour).length
    ∧ (group_contours_into_objects boxGeom
        [sqContour 0 10, sqContour 2 8, sqContour 4 6]).2.flatten.count 1 = 1 :=
  ⟨by decide,
   (group_contours_partition boxGeom
      [sqContour 0 10, sqContour 2 8, sqContour 4 6] 1
      (by decide) (by with_unfolding_all decide)).1⟩

/- ═══════ C4 (amended): invalid contours are dropped on the main path ═══════ -/

/-- C4 counterexample: with two 3-point (hence invalid) contours, no item
survives validation and the fallback branch returns both invalid contours
as one group — so an invalid contour can appear in a returned group. -/
theorem group_contours_invalid_kept_counterexample :
    passesValidation boxGeom [(0, 0), (1, 0), (0, 1)] = false
    ∧ (group_contours_into_objects boxGeom
        [[(0, 0), (1, 0), (0, 1)], [(5, 5), (6, 5), (5, 6)]]).2
      = [[0, 1]] := by
  constructor
  · with_unfolding_all decide
  · with_unfolding_all decide

/-- C4 amended: on inputs with at least 2 contours of which at least one
survives validation, every contour failing validation appears in no
returned group (and the function is total, so no exception is raised). -/
theorem group_contours_drops_invalid (G : GeomModel P)
    (contours : List Contour) (hlen : 2 ≤ contours.length)
    (hsome : validItems G contours ≠ [])
    (j : Nat) (hinv : passesValidation G (contours.getD j []) = false) :
    j ∉ (group_contours_into_objects G contours).2.flatten := by
  have h2 : ¬ contours.length ≤ 1 := by omega
  have hne : (validItems G contours).isEmpty = false := by
    cases hval : validItems G contours with
    | nil => exact absurd hval hsome
    | cons a l => rfl
  rw [group_contours_eq_main G contours h2 hne]
  have hdec : ∀ a b,
      bestParent G (sortedItems G contours) a = some b → b < a :=
    fun a b h => bestParent_lt G (sortedItems G contours) a b h
  have hodd := fun a h =>
    depthOf_odd_parent (bestParent G (sortedItems G contours)) hdec a h
  have hpar : ∀ a,
      depthOf (bestParent G (sortedItems G contours)) a % 2 = 0
      ∨ depthOf (bestParent G (sortedItems G contours)) a % 2 = 1 :=
    fun a => Nat.mod_two_eq_zero_or_one _
  have hsorted := groupsMap_sorted_keys _ _ hdec hodd hpar
    (sortedItems G contours).length
  rw [assembleGroups_snd contours (sortedItems G contours) G.dflt _ hsorted]
  intro hmem
  rcases List.mem_flatten.mp hmem with ⟨l, hl, hjl⟩
  rcases List.mem_map.mp hl with ⟨e, he, rfl⟩
  have hmlt := groupsMap_mem_lt _ _ hdec hodd hpar
    (sortedItems G contours).length e he
  have hjorig : ∃ b, b < (sortedItems G contours).length
      ∧ ((sortedItems G contours).getD b (0, G.dflt)).1 = j := by
    rcases List.mem_cons.mp hjl with hj1 | hj2
    · exact ⟨e.1, hmlt.1, hj1.symm⟩
    · rcases List.mem_map.mp hj2 with ⟨b, hb, rfl⟩
      exact ⟨b, hmlt.2 b hb, rfl⟩
  obtain ⟨b, hbn, hbj⟩ := hjorig
  have hjs : j ∈ (sortedItems G contours).map Prod.fst := by
    rw [← hbj, List.getD_eq_getElem _ _ hbn]
    refine List.mem_map.mpr ⟨(sortedItems G contours).get ⟨b, hbn⟩, ?_, ?_⟩
    · exact List.get_mem _ _ hbn
    · simp
  have hperm : ((sortedItems G contours).map Prod.fst).Perm
      ((validItems G contours).map Prod.fst) :=
    (List.perm_insertionSort _ _).map _
  have hval := (mem_validItems_iff G contours j).mp (hperm.mem_iff.mp hjs)
  rw [hval.2] at hinv
  exact absurd hinv (by simp)

/-- Witness for `group_contours_drops_invalid`: an invalid triangle beside
a valid square never reaches the output. -/
theorem group_contours_drops_invalid_witness :
    1 ∉ (group_contours_into_objects boxGeom
      [sqContour 0 10, [(0, 0), (1, 0), (0, 1)]]).2.flatten :=
  group_contours_drops_invalid boxGeom
    [sqContour 0 10, [(0, 0), (1, 0), (0, 1)]]
    (by decide) (by with_unfolding_all decide) 1
    (by with_unfolding_all decide)

/- ═══════ the Douglas-Peucker max-distance scan ═══════ -/

/-- The `(max_idx, max_dist)` pair computed by the scan of
`_douglas_peucker` over the interior indices of `pts`. -/
def dpArgmax (dist : Pt → Pt → Pt → ℚ) (pts : List Pt) : Nat × ℚ :=
  firstArgmax
    (fun i => dist (pts.getD i 0) (pts.getD 0 0) (pts.getD (pts.length - 1) 0))
    (List.range' 1 (pts.length - 2))

/-- One unfolding of the fuelled `_douglas_peucker` body. -/
lemma dpAux_succ (dist : Pt → Pt → Pt → ℚ) (tol : ℚ) (fuel : Nat)
    (pts : List Pt) :
    dpAux dist tol (fuel + 1) pts
      = if pts.length ≤ 2 then pts
        else if tol < (dpArgmax dist pts).2 then
          (dpAux dist tol fuel (pts.take ((dpArgmax dist pts).1 + 1))).dropLast
            ++ dpAux dist tol fuel (pts.drop (dpArgmax dist pts).1)
        else [pts.getD 0 0, pts.getD (pts.length - 1) 0] := rfl

/-- Soundness of the running-max scan `firstArgmax` over `[1, k]`: the
result dominates every scanned value, and is either the untouched initial
`(0, 0)` or the first index attaining the maximum. -/
lemma firstArgmax_spec (f : Nat → ℚ) (k : Nat) :
    0 ≤ (firstArgmax f (List.range' 1 k)).2
    ∧ (∀ i, 1 ≤ i → i ≤ k → f i ≤ (firstArgmax f (List.range' 1 k)).2)
    ∧ ((firstArgmax f (List.range' 1 k)).1 = 0
        ∧ (firstArgmax f (List.range' 1 k)).2 = 0
      ∨ (1 ≤ (firstArgmax f (List.range' 1 k)).1
        ∧ (firstArgmax f (List.range' 1 k)).1 ≤ k
        ∧ f (firstArgmax f (List.range' 1 k)).1
            = (firstArgmax f (List.range' 1 k)).2
        ∧ ∀ i, 1 ≤ i → i < (firstArgmax f (List.range' 1 k)).1 →
            f i < (firstArgmax f (List.range' 1 k)).2)) := by
  induction k with
  | zero =>
    refine ⟨le_refl 0, ?_, Or.inl ⟨rfl, rfl⟩⟩
    intro i h1 h0
    omega
  | succ k ih =>
    obtain ⟨ih0, ihub, ihcase⟩ := ih
    have hconcat : firstArgmax f (List.range' 1 (k + 1))
        = (if (firstArgmax f (List.range' 1 k)).2 < f (1 + k)
            then (1 + k, f (1 + k))
            else firstArgmax f (List.range' 1 k)) := by
      rw [firstArgmax, List.range'_1_concat, List.foldl_concat]
      rfl
    rw [hconcat]
    by_cases hlt : (firstArgmax f (List.range' 1 k)).2 < f (1 + k)
    · rw [if_pos hlt]
      refine ⟨le_of_lt (lt_of_le_of_lt ih0 hlt), ?_, Or.inr ⟨by omega, by omega, rfl, ?_⟩⟩
      · intro i h1 hik
        rcases Nat.lt_or_ge i (k + 1) with hik' | hik'
        · exact le_of_lt (lt_of_le_of_lt (ihub i h1 (by omega)) hlt)
        · have : i = 1 + k := by omega
          rw [this]
      · intro i h1 hik
        exact lt_of_le_of_lt (ihub i h1 (by omega)) hlt
    · rw [if_neg hlt]
      refine ⟨ih0, ?_, ?_⟩
      · intro i h1 hik
        rcases Nat.lt_or_ge i (k + 1) with hik' | hik'
        · exact ihub i h1 (by omega)
        · have : i = 1 + k := by omega
          rw [this]
          exact le_of_not_lt hlt
      · rcases ihcase with h | h
        · exact Or.inl h
        · exact Or.inr ⟨h.1, by omega, h.2.2.1, h.2.2.2⟩

/-- Forcing: a value `D > 0` attained first at `j` forces the scan to
return `(j, D)`. -/
lemma firstArgmax_eq (f : Nat → ℚ) (k j : Nat) (D : ℚ)
    (hj1 : 1 ≤ j) (hjk : j ≤ k) (hfj : f j = D) (hD : 0 < D)
    (hbef : ∀ i, 1 ≤ i → i < j → f i < D)
    (haft : ∀ i, j < i → i ≤ k → f i ≤ D) :
    firstArgmax f (List.range' 1 k) = (j, D) := by
  obtain ⟨h0, hub, hcase⟩ := firstArgmax_spec f k
  rcases hcase with ⟨hm0, hD0⟩ | ⟨hm1, hmk, hfm, hfirst⟩
  · exfalso
    have := hub j hj1 hjk
    rw [hfj, hD0] at this
    exact absurd (lt_of_lt_of_le hD this) (lt_irrefl 0)
  · have hDle : D ≤ (firstArgmax f (List.range' 1 k)).2 := hfj ▸ hub j hj1 hjk
    rcases Nat.lt_trichotomy (firstArgmax f (List.range' 1 k)).1 j with hmj | hmj | hmj
    · exfalso
      have h1 := hbef _ hm1 hmj
      rw [hfm] at h1
      exact absurd (lt_of_le_of_lt hDle h1)
        (lt_irrefl _)
    · have : (firstArgmax f (List.range' 1 k)).2 = D := by
        rw [← hfm, hmj, hfj]
      exact Prod.ext hmj this
    · exfalso
      have h1 := haft _ hmj hmk
      rw [hfm] at h1
      have h2 := hfirst j hj1 hmj
      rw [hfj] at h2
      exact absurd (lt_of_le_of_lt h1 h2) (lt_irrefl _)

/-- When the scan's best distance beats a non-negative tolerance, the split
index is a genuine interior index. -/
lemma dpArgmax_split_bounds (dist : Pt → Pt → Pt → ℚ) (tol : ℚ)
    (pts : List Pt) (htol : 0 ≤ tol)
    (hsplit : tol < (dpArgmax dist pts).2) :
    1 ≤ (dpArgmax dist pts).1 ∧ (dpArgmax dist pts).1 ≤ pts.length - 2 := by
  obtain ⟨h0, hub, hcase⟩ := firstArgmax_spec
    (fun i => dist (pts.getD i 0) (pts.getD 0 0) (pts.getD (pts.length - 1) 0))
    (pts.length - 2)
  rcases hcase with ⟨hm0, hD0⟩ | ⟨hm1, hmk, _, _⟩
  · exfalso
    rw [dpArgmax] at hsplit
    rw [hD0] at hsplit
    exact absurd (lt_of_le_of_lt htol hsplit) (lt_irrefl 0)
  · exact ⟨hm1, hmk⟩

/-- With non-negative tolerance the fuelled simplifier does not depend on
the fuel, as long as it covers the list length. -/
lemma dpAux_congr_aux (dist : Pt → Pt → Pt → ℚ) (tol : ℚ) (htol : 0 ≤ tol) :
    ∀ (l : Nat) (pts : List Pt), pts.length ≤ l →
      ∀ (f₁ f₂ : Nat), pts.length ≤ f₁ → pts.length ≤ f₂ →
        dpAux dist tol f₁ pts = dpAux dist tol f₂ pts := by
  intro l
  induction l using Nat.strong_induction_on with
  | _ l ih =>
    intro pts hl f₁ f₂ h1 h2
    by_cases hsmall : pts.length ≤ 2
    · cases f₁ with
      | zero => cases f₂ with
        | zero => rfl
        | succ g₂ => rw [dpAux_succ, if_pos hsmall]; rfl
      | succ g₁ => cases f₂ with
        | zero => rw [dpAux_succ, if_pos hsmall]; rfl
        | succ g₂ => rw [dpAux_succ, dpAux_succ, if_pos hsmall, if_pos hsmall]
    · cases f₁ with
      | zero => omega
      | succ g₁ => cases f₂ with
        | zero => omega
        | succ g₂ =>
          rw [dpAux_succ, dpAux_succ, if_neg hsmall, if_neg hsmall]
          by_cases hsp : tol < (dpArgmax dist pts).2
          · rw [if_pos hsp, if_pos hsp]
            obtain ⟨hb1, hb2⟩ := dpArgmax_split_bounds dist tol pts htol hsp
            have htlen : (pts.take ((dpArgmax dist pts).1 + 1)).length
                = (dpArgmax dist pts).1 + 1 := by
              rw [List.length_take]
              omega
            have hdlen : (pts.drop (dpArgmax dist pts).1).length
                = pts.length - (dpArgmax dist pts).1 := List.length_drop _ _
            rw [ih (l - 1) (by omega) _ (by omega) g₁ g₂ (by omega) (by omega),
              ih (l - 1) (by omega) _ (by omega) g₁ g₂ (by omega) (by omega)]
          · rw [if_neg hsp, if_neg hsp]

/-- Fuel irrelevance, instantiated. -/
lemma dpAux_congr (dist : Pt → Pt → Pt → ℚ) (tol : ℚ) (htol : 0 ≤ tol)
    (pts : List Pt) (f₁ f₂ : Nat) (h1 : pts.length ≤ f₁)
    (h2 : pts.length ≤ f₂) :
    dpAux dist tol f₁ pts = dpAux dist tol f₂ pts :=
  dpAux_congr_aux dist tol htol pts.length pts (le_refl _) f₁ f₂ h1 h2

/-- Unfolding of `_douglas_peucker` on short inputs. -/
lemma douglas_peucker_short (dist : Pt → Pt → Pt → ℚ) (tol : ℚ)
    (pts : List Pt) (h : pts.length ≤ 2) :
    douglas_peucker dist tol pts = pts := by
  rw [douglas_peucker]
  cases hl : pts.length with
  | zero => rw [List.length_eq_zero.mp hl]; rfl
  | succ m =>
    rw [dpAux_succ, if_pos (by omega)]

/-- Unfolding of `_douglas_peucker` on inputs of 3 or more points. -/
lemma douglas_peucker_eq (dist : Pt → Pt → Pt → ℚ) (tol : ℚ)
    (pts : List Pt) (htol : 0 ≤ tol) (h3 : 3 ≤ pts.length) :
    douglas_peucker dist tol pts
      = if tol < (dpArgmax dist pts).2 then
          (douglas_peucker dist tol
            (pts.take ((dpArgmax dist pts).1 + 1))).dropLast
            ++ douglas_peucker dist tol (pts.drop (dpArgmax dist pts).1)
        else [pts.getD 0 0, pts.getD (pts.length - 1) 0] := by
  by_cases hsp : tol < (dpArgmax dist pts).2
  · rw [if_pos hsp]
    obtain ⟨hb1, hb2⟩ := dpArgmax_split_bounds dist tol pts htol hsp
    have htlen : (pts.take ((dpArgmax dist pts).1 + 1)).length
        = (dpArgmax dist pts).1 + 1 := by
      rw [List.length_take]
      omega
    have hdlen : (pts.drop (dpArgmax dist pts).1).length
        = pts.length - (dpArgmax dist pts).1 := List.length_drop _ _
    have hunfold : douglas_peucker dist tol pts
        = dpAux dist tol pts.length pts := rfl
    cases hl : pts.length with
    | zero => omega
    | succ m =>
      rw [hunfold, hl, dpAux_succ, if_neg (by omega), if_pos hsp]
      rw [douglas_peucker, douglas_peucker]
      rw [dpAux_congr dist tol htol _ m _ (by omega) (le_refl _),
        dpAux_congr dist tol htol _ m _ (by omega) (le_refl _)]
  · rw [if_neg hsp]
    have hunfold : douglas_peucker dist tol pts
        = dpAux dist tol pts.length pts := rfl
    cases hl : pts.length with
    | zero => omega
    | succ m =>
      rw [hunfold, hl, dpAux_succ, if_neg (by omega), if_neg hsp]
      rw [← hl]

/- ═══════ list endpoints, sublists and interiors ═══════ -/

/-- Dropping the last point keeps the head of a 2-point-or-longer list. -/
lemma head?_dropLast {α : Type} (l : List α) (h : 2 ≤ l.length) :
    l.dropLast.head? = l.head? := by
  cases l with
  | nil => simp at h
  | cons a t =>
    cases t with
    | nil => simp at h
    | cons b u => rfl

/-- The two endpoints of a list form a sublist of it. -/
lemma head_last_sublist (pts : List Pt) (h2 : 2 ≤ pts.length) :
    ([pts.getD 0 0, pts.getD (pts.length - 1) 0]).Sublist pts := by
  cases pts with
  | nil => simp at h2
  | cons a t =>
    cases t with
    | nil => simp at h2
    | cons c u =>
      have hidx : (a :: c :: u).length - 1 = (c :: u).length - 1 + 1 := by
        simp
      have hval : (a :: c :: u).getD ((a :: c :: u).length - 1) 0
          = (c :: u).getD ((c :: u).length - 1) 0 := by
        rw [hidx]
        rfl
      rw [hval]
      rw [show (a :: c :: u).getD 0 0 = a from rfl]
      apply List.cons_sublist_cons.mpr
      apply List.singleton_sublist.mpr
      rw [List.getD_eq_getElem _ _ (by simp)]
      exact List.getElem_mem _

/-- Cancelling a common final element of two sublists. -/
lemma sublist_append_singleton_cancel {α : Type} (l₁ l₂ : List α) (a : α)
    (h : (l₁ ++ [a]).Sublist (l₂ ++ [a])) : l₁.Sublist l₂ := by
  have h2 := List.reverse_sublist.mpr h
  simp only [List.reverse_append, List.reverse_singleton,
    List.singleton_append] at h2
  exact List.reverse_sublist.mp (List.cons_sublist_cons.mp h2)

/-- A sublist of `t ++ [a]` ending in `a` has its front a sublist of `t`. -/
lemma dropLast_sublist_of_concat {α : Type} (s t : List α) (a : α)
    (h : s.Sublist (t ++ [a])) (hl : s.getLast? = some a) :
    s.dropLast.Sublist t := by
  have hne : s ≠ [] := by
    intro h0
    rw [h0] at hl
    simp at hl
  have hlast : s.getLast hne = a := by
    have := List.getLast?_eq_getLast s hne
    rw [this] at hl
    exact Option.some.injEq _ _ ▸ hl
  have hs : s.dropLast ++ [a] = s := by
    rw [← hlast]
    exact List.dropLast_append_getLast hne
  apply sublist_append_singleton_cancel _ _ a
  rw [hs]
  exact h

/-- Pushing a front membership through a fresh head. -/
lemma mem_dropLast_cons {α : Type} (a x : α) (l : List α)
    (hx : x ∈ l.dropLast) : x ∈ (a :: l).dropLast := by
  cases l with
  | nil => simp at hx
  | cons b t =>
    rw [List.dropLast_cons₂]
    exact List.mem_cons_of_mem _ hx

/-- Pushing a front membership through a common head. -/
lemma mem_dropLast_cons₂ {α : Type} (a x : α) (l₁ l₂ : List α)
    (h : l₁.Sublist l₂) (hsub : ∀ y ∈ l₁.dropLast, y ∈ l₂.dropLast)
    (hx : x ∈ (a :: l₁).dropLast) : x ∈ (a :: l₂).dropLast := by
  cases l₁ with
  | nil => simp at hx
  | cons c u =>
    have hl₂ : l₂ ≠ [] := by
      intro h0
      subst h0
      have := h.length_le
      simp at this
    cases l₂ with
    | nil => exact absurd rfl hl₂
    | cons d w =>
      rw [List.dropLast_cons₂] at hx
      rw [List.dropLast_cons₂]
      rcases List.mem_cons.mp hx with rfl | hx2
      · exact List.mem_cons_self _ _
      · exact List.mem_cons_of_mem _ (hsub x hx2)

/-- Members of the front of a sublist are members of the front. -/
lemma dropLast_subset_of_sublist {α : Type} {s l : List α}
    (h : s.Sublist l) : ∀ x ∈ s.dropLast, x ∈ l.dropLast := by
  induction h with
  | slnil => intro x hx; exact hx
  | cons a h ih => intro x hx; exact mem_dropLast_cons _ _ _ (ih x hx)
  | cons₂ a h ih => intro x hx; exact mem_dropLast_cons₂ _ _ _ _ h ih hx

/-- Members of the interior of a list are members of its front. -/
lemma interior_sub_dropLast {α : Type} (s : List α) (x : α)
    (hx : x ∈ (s.drop 1).dropLast) : x ∈ s.dropLast := by
  cases s with
  | nil => simpa using hx
  | cons a t =>
    cases t with
    | nil => simpa using hx
    | cons b u =>
      rw [List.dropLast_cons₂]
      exact List.mem_cons_of_mem _ (by simpa using hx)

/-- Interiors are monotone along sublists (as sets of members). -/
lemma interior_subset_of_sublist {α : Type} {s l : List α}
    (h : s.Sublist l) : ∀ x ∈ (s.drop 1).dropLast, x ∈ (l.drop 1).dropLast := by
  induction h with
  | slnil => intro x hx; exact hx
  | cons a h ih =>
    intro x hx
    have hx2 : x ∈ (List.dropLast _) := interior_sub_dropLast _ x hx
    exact dropLast_subset_of_sublist h x hx2
  | cons₂ a h ih =>
    intro x hx
    exact dropLast_subset_of_sublist h x hx

/-- An interior member is some interior index's entry. -/
lemma mem_interior_exists (l : List Pt) (x : Pt)
    (hx : x ∈ (l.drop 1).dropLast) :
    ∃ i, 1 ≤ i ∧ i ≤ l.length - 2 ∧ l.getD i 0 = x := by
  obtain ⟨p, hp, hpx⟩ := List.mem_iff_getElem.mp hx
  have hp2 : p < l.length - 2 := by
    have := hp
    rw [List.length_dropLast, List.length_drop] at this
    omega
  have hlen : 3 ≤ l.length := by omega
  refine ⟨p + 1, by omega, by omega, ?_⟩
  rw [List.getElem_dropLast, List.getElem_drop] at hpx
  have hgd : l.getD (1 + p) 0 = x := by
    rw [List.getD_eq_getElem _ _ (by omega : 1 + p < l.length)]
    exact hpx
  rw [show p + 1 = 1 + p from by omega]
  exact hgd

/-- Interior indices give interior members. -/
lemma getD_mem_interior (l : List Pt) (i : Nat) (h1 : 1 ≤ i)
    (h2 : i ≤ l.length - 2) (h3 : 3 ≤ l.length) :
    l.getD i 0 ∈ (l.drop 1).dropLast := by
  apply List.mem_iff_getElem.mpr
  refine ⟨i - 1, ?_, ?_⟩
  · rw [List.length_dropLast, List.length_drop]
    omega
  · rw [List.getElem_dropLast, List.getElem_drop]
    rw [List.getD_eq_getElem _ _ (by omega : i < l.length)]
    congr 1
    omega

/-- `getD` through a known head. -/
lemma getD_zero_of_head? {α : Type} (l : List α) (a d : α)
    (h : l.head? = some a) : l.getD 0 d = a := by
  cases l with
  | nil => simp at h
  | cons b t =>
    simp only [List.head?_cons, Option.some.injEq] at h
    rw [List.getD_cons_zero]
    exact h

/-- `getD` at the last index through `getLast?`. -/
lemma getD_last_of_getLast? {α : Type} (l : List α) (a d : α)
    (h : l.getLast? = some a) : l.getD (l.length - 1) d = a := by
  rw [List.getD_eq_getElem?_getD, ← List.getLast?_eq_getElem?, h]
  rfl

/-- `getD` to the right of an append. -/
lemma getD_append_plus {α : Type} (l₁ l₂ : List α) (i : Nat) (d : α) :
    (l₁ ++ l₂).getD (l₁.length + i) d = l₂.getD i d := by
  induction l₁ with
  | nil => rw [List.nil_append, List.length_nil, Nat.zero_add]
  | cons a t ih =>
    rw [List.cons_append,
      show (a :: t).length + i = t.length + i + 1 from by
        rw [List.length_cons]; omega,
      List.getD_cons_succ]
    exact ih

/-- `getD` inside a list's front. -/
lemma getD_dropLast {α : Type} (l : List α) (i : Nat) (d : α)
    (h : i < l.length - 1) : l.dropLast.getD i d = l.getD i d := by
  rw [List.getD_eq_getElem _ _ (by rw [List.length_dropLast]; omega),
    List.getD_eq_getElem _ _ (by omega)]
  exact List.getElem_dropLast _ _ _

/-- `getD` inside a take. -/
lemma getD_take {α : Type} (l : List α) (n i : Nat) (d : α)
    (h1 : i < n) (h2 : i < l.length) : (l.take n).getD i d = l.getD i d := by
  rw [List.getD_eq_getElem _ _ (by rw [List.length_take]; omega),
    List.getD_eq_getElem _ _ h2]
  exact List.getElem_take l

/-- `getD` inside a drop. -/
lemma getD_drop {α : Type} (l : List α) (m i : Nat) (d : α)
    (h : m + i < l.length) : (l.drop m).getD i d = l.getD (m + i) d := by
  rw [List.getD_eq_getElem _ _ (by rw [List.length_drop]; omega),
    List.getD_eq_getElem _ _ h]
  exact List.getElem_drop l

/-- `take (m+1)` split at its final entry. -/
lemma take_succ_getD (l : List Pt) (m : Nat) (h : m < l.length) :
    l.take (m + 1) = l.take m ++ [l.getD m 0] := by
  rw [List.take_succ, List.getElem?_eq_getElem h, List.getD_eq_getElem _ _ h]
  rfl

/-- The last entry of a nonempty drop is the last entry of the list. -/
lemma getLast?_drop_eq (l : List Pt) (m : Nat) (h : m < l.length) :
    (l.drop m).getLast? = l.getLast? := by
  have hne : l.drop m ≠ [] := by
    intro h0
    have := congrArg List.length h0
    rw [List.length_drop, List.length_nil] at this
    omega
  conv_rhs => rw [← List.take_append_drop m l]
  rw [List.getLast?_append_of_ne_nil _ hne]

/-- The head of a drop at an in-range position. -/
lemma head?_drop_eq (l : List Pt) (m : Nat) (h : m < l.length) :
    (l.drop m).head? = some (l.getD m 0) := by
  rw [List.head?_drop, List.getElem?_eq_getElem h, List.getD_eq_getElem _ _ h]

/-- The head of a nonempty list as a default-indexed entry. -/
lemma head?_eq_getD (l : List Pt) (h : 1 ≤ l.length) :
    l.head? = some (l.getD 0 0) := by
  rw [List.head?_eq_getElem?, List.getElem?_eq_getElem (by omega),
    List.getD_eq_getElem _ _ (by omega)]

/-- The last entry of a nonempty list as a default-indexed entry. -/
lemma getLast?_eq_getD (l : List Pt) (h : 1 ≤ l.length) :
    l.getLast? = some (l.getD (l.length - 1) 0) := by
  rw [List.getLast?_eq_getElem?, List.getElem?_eq_getElem (by omega),
    List.getD_eq_getElem _ _ (by omega)]

/-- Reattaching a known last element to the front of a list. -/
lemma dropLast_append_of_getLast? {α : Type} (l : List α) (a : α)
    (h : l.getLast? = some a) : l.dropLast ++ [a] = l := by
  have hne : l ≠ [] := by
    intro h0
    rw [h0] at h
    simp at h
  have hlast : l.getLast hne = a := by
    rw [List.getLast?_eq_getLast l hne] at h
    exact Option.some.injEq _ _ ▸ h
  rw [← hlast]
  exact List.dropLast_append_getLast hne

/-- Structural shape of the simplifier on inputs of 2 or more points with a
non-negative tolerance: the head and last entries survive, the output is a
sublist of the input and keeps at least two points. -/
lemma dp_shape (dist : Pt → Pt → Pt → ℚ) (tol : ℚ) (htol : 0 ≤ tol) :
    ∀ (l : Nat) (pts : List Pt), pts.length ≤ l → 2 ≤ pts.length →
      (douglas_peucker dist tol pts).head? = pts.head?
      ∧ (douglas_peucker dist tol pts).getLast? = pts.getLast?
      ∧ (douglas_peucker dist tol pts).Sublist pts
      ∧ 2 ≤ (douglas_peucker dist tol pts).length := by
  intro l
  induction l using Nat.strong_induction_on with
  | _ l ih =>
    intro pts hl h2
    by_cases hsmall : pts.length ≤ 2
    · rw [douglas_peucker_short dist tol pts hsmall]
      exact ⟨rfl, rfl, List.Sublist.refl _, h2⟩
    · have h3 : 3 ≤ pts.length := by omega
      rw [douglas_peucker_eq dist tol pts htol h3]
      by_cases hsp : tol < (dpArgmax dist pts).2
      · rw [if_pos hsp]
        obtain ⟨hb1, hb2⟩ := dpArgmax_split_bounds dist tol pts htol hsp
        have htlen : (pts.take ((dpArgmax dist pts).1 + 1)).length
            = (dpArgmax dist pts).1 + 1 := by
          rw [List.length_take]
          omega
        have hdlen : (pts.drop (dpArgmax dist pts).1).length
            = pts.length - (dpArgmax dist pts).1 := List.length_drop _ _
        obtain ⟨Lh, Ll, Ls, Ln⟩ := ih (l - 1) (by omega)
          (pts.take ((dpArgmax dist pts).1 + 1)) (by rw [htlen]; omega)
          (by rw [htlen]; omega)
        obtain ⟨Rh, Rl, Rs, Rn⟩ := ih (l - 1) (by omega)
          (pts.drop (dpArgmax dist pts).1) (by rw [hdlen]; omega)
          (by rw [hdlen]; omega)
        have hLne : (douglas_peucker dist tol
            (pts.take ((dpArgmax dist pts).1 + 1))).dropLast ≠ [] := by
          intro h0
          have := congrArg List.length h0
          rw [List.length_dropLast, List.length_nil] at this
          omega
        have hRne : douglas_peucker dist tol
            (pts.drop (dpArgmax dist pts).1) ≠ [] := by
          intro h0
          rw [h0] at Rn
          simp at Rn
        have hT : pts.take ((dpArgmax dist pts).1 + 1)
            = pts.take (dpArgmax dist pts).1
              ++ [pts.getD (dpArgmax dist pts).1 0] :=
          take_succ_getD pts _ (by omega)
        refine ⟨?_, ?_, ?_, ?_⟩
        · rw [List.head?_append_of_ne_nil _ hLne, head?_dropLast _ Ln, Lh,
            List.head?_take, if_neg (by omega)]
        · rw [List.getLast?_append_of_ne_nil _ hRne, Rl,
            getLast?_drop_eq pts _ (by omega)]
        · have hLdrop : (douglas_peucker dist tol
              (pts.take ((dpArgmax dist pts).1 + 1))).dropLast.Sublist
              (pts.take (dpArgmax dist pts).1) := by
            apply dropLast_sublist_of_concat _ _
              (pts.getD (dpArgmax dist pts).1 0)
            · rw [← hT]
              exact Ls
            · rw [Ll, hT, List.getLast?_append_of_ne_nil _ (by simp)]
              rfl
          have hsub := List.Sublist.append hLdrop Rs
          rw [List.take_append_drop] at hsub
          exact hsub
        · rw [List.length_append, List.length_dropLast]
          omega
      · rw [if_neg hsp]
        refine ⟨?_, ?_, head_last_sublist pts (by omega), by simp⟩
        · rw [show ([pts.getD 0 0, pts.getD (pts.length - 1) 0]).head?
              = some (pts.getD 0 0) from rfl, head?_eq_getD pts (by omega)]
        · rw [show ([pts.getD 0 0, pts.getD (pts.length - 1) 0]).getLast?
              = some (pts.getD (pts.length - 1) 0) from rfl,
            getLast?_eq_getD pts (by omega)]

/-- C7: for every input of at least 2 points and every non-negative
tolerance, `_douglas_peucker` begins with the input's first point, ends
with the input's last point, returns at most as many points as given, and
its output is a subsequence of the input (same points in the same relative
order); proved for an arbitrary point-to-segment distance function, which
covers the source's `_point_line_distance`. -/
theorem douglas_peucker_endpoints_subsequence
    (dist : Pt → Pt → Pt → ℚ) (tol : ℚ) (pts : List Pt)
    (htol : 0 ≤ tol) (h2 : 2 ≤ pts.length) :
    (douglas_peucker dist tol pts).head? = pts.head?
    ∧ (douglas_peucker dist tol pts).getLast? = pts.getLast?
    ∧ (douglas_peucker dist tol pts).length ≤ pts.length
    ∧ (douglas_peucker dist tol pts).Sublist pts := by
  obtain ⟨hh, hlast, hs, _⟩ := dp_shape dist tol htol pts.length pts
    (le_refl _) h2
  exact ⟨hh, hlast, hs.length_le, hs⟩

/-- Witness for C7 at a concrete 3-point tent with distance `p.2`. -/
theorem douglas_peucker_endpoints_subsequence_witness :
    (douglas_peucker (fun p _ _ => p.2) 1
        [((0 : ℚ), (0 : ℚ)), (5, 7), (10, 0)]).head?
      = some ((0 : ℚ), (0 : ℚ))
    ∧ (douglas_peucker (fun p _ _ => p.2) 1
        [((0 : ℚ), (0 : ℚ)), (5, 7), (10, 0)]).getLast?
      = some ((10 : ℚ), (0 : ℚ))
    ∧ (douglas_peucker (fun p _ _ => p.2) 1
        [((0 : ℚ), (0 : ℚ)), (5, 7), (10, 0)]).Sublist
        [((0 : ℚ), (0 : ℚ)), (5, 7), (10, 0)] := by
  obtain ⟨hh, hlast, _, hs⟩ := douglas_peucker_endpoints_subsequence
    (fun p _ _ => p.2) 1 [((0 : ℚ), (0 : ℚ)), (5, 7), (10, 0)]
    (by norm_num) (by decide)
  exact ⟨by rw [hh]; rfl, by rw [hlast]; rfl, hs⟩

/-- The split case of idempotence: when the scan on `pts` selects index `m`
with best distance `D > tol`, re-simplifying the glued output
`(dp(take (m+1))).dropLast ++ dp(drop m)` finds the copy of `pts[m]` at the
glue position as its own first argmax with the same value `D`, splits there,
and reproduces the two halves. -/
lemma dp_split_glue (dist : Pt → Pt → Pt → ℚ) (tol : ℚ) (htol : 0 ≤ tol)
    (pts : List Pt) (m : Nat) (D : ℚ)
    (hm1 : 1 ≤ m) (hm2 : m ≤ pts.length - 2) (h3 : 3 ≤ pts.length)
    (hsp : tol < D)
    (hfm : dist (pts.getD m 0) (pts.getD 0 0) (pts.getD (pts.length - 1) 0)
      = D)
    (hfirst : ∀ i, 1 ≤ i → i < m →
      dist (pts.getD i 0) (pts.getD 0 0) (pts.getD (pts.length - 1) 0) < D)
    (hub : ∀ i, 1 ≤ i → i ≤ pts.length - 2 →
      dist (pts.getD i 0) (pts.getD 0 0) (pts.getD (pts.length - 1) 0) ≤ D)
    (hL5 : douglas_peucker dist tol
        (douglas_peucker dist tol (pts.take (m + 1)))
      = douglas_peucker dist tol (pts.take (m + 1)))
    (hR5 : douglas_peucker dist tol
        (douglas_peucker dist tol (pts.drop m))
      = douglas_peucker dist tol (pts.drop m)) :
    douglas_peucker dist tol
      ((douglas_peucker dist tol (pts.take (m + 1))).dropLast
        ++ douglas_peucker dist tol (pts.drop m))
      = (douglas_peucker dist tol (pts.take (m + 1))).dropLast
        ++ douglas_peucker dist tol (pts.drop m) := by
  have htlen : (pts.take (m + 1)).length = m + 1 := by
    rw [List.length_take]
    omega
  have hdlen : (pts.drop m).length = pts.length - m := List.length_drop _ _
  obtain ⟨Lh, Ll, Ls, Ln⟩ := dp_shape dist tol htol
    (pts.take (m + 1)).length (pts.take (m + 1)) (le_refl _)
    (by rw [htlen]; omega)
  obtain ⟨Rh, Rl, Rs, Rn⟩ := dp_shape dist tol htol
    (pts.drop m).length (pts.drop m) (le_refl _)
    (by rw [hdlen]; omega)
  set L := douglas_peucker dist tol (pts.take (m + 1)) with hLdef
  set R := douglas_peucker dist tol (pts.drop m) with hRdef
  have hTlast : (pts.take (m + 1)).getLast? = some (pts.getD m 0) := by
    rw [take_succ_getD pts m (by omega),
      List.getLast?_append_of_ne_nil _ (by simp)]
    rfl
  have hLlast : L.getLast? = some (pts.getD m 0) := Ll.trans hTlast
  have hRhead : R.head? = some (pts.getD m 0) :=
    Rh.trans (head?_drop_eq pts m (by omega))
  have hLhead : L.head? = some (pts.getD 0 0) := by
    rw [Lh, List.head?_take, if_neg (by omega : ¬ (m + 1 = 0)),
      head?_eq_getD pts (by omega)]
  have hRlast : R.getLast? = some (pts.getD (pts.length - 1) 0) :=
    (Rl.trans (getLast?_drop_eq pts m (by omega))).trans
      (getLast?_eq_getD pts (by omega))
  have hLdne : L.dropLast ≠ [] := by
    intro h0
    have := congrArg List.length h0
    rw [List.length_dropLast, List.length_nil] at this
    omega
  have hRne : R ≠ [] := by
    intro h0
    rw [h0] at Rn
    simp at Rn
  have hQh : (L.dropLast ++ R).head? = some (pts.getD 0 0) := by
    rw [List.head?_append_of_ne_nil _ hLdne, head?_dropLast _ Ln, hLhead]
  have hQ0 : (L.dropLast ++ R).getD 0 0 = pts.getD 0 0 :=
    getD_zero_of_head? _ _ _ hQh
  have hQl : (L.dropLast ++ R).getLast? = some (pts.getD (pts.length - 1) 0) := by
    rw [List.getLast?_append_of_ne_nil _ hRne, hRlast]
  have hQlast : (L.dropLast ++ R).getD ((L.dropLast ++ R).length - 1) 0
      = pts.getD (pts.length - 1) 0 :=
    getD_last_of_getLast? _ _ _ hQl
  have hQj : (L.dropLast ++ R).getD (L.length - 1) 0 = pts.getD m 0 := by
    have h1 := getD_append_plus L.dropLast R 0 (0 : Pt)
    rw [List.length_dropLast, Nat.add_zero] at h1
    rw [h1]
    exact getD_zero_of_head? _ _ _ hRhead
  have hQarg : dpArgmax dist (L.dropLast ++ R) = (L.length - 1, D) := by
    rw [dpArgmax]
    simp only [hQ0, hQlast]
    refine firstArgmax_eq _ _ _ D (by omega) ?_ ?_
      (lt_of_le_of_lt htol hsp) ?_ ?_
    · rw [List.length_append, List.length_dropLast]
      omega
    · show dist ((L.dropLast ++ R).getD (L.length - 1) 0)
        (pts.getD 0 0) (pts.getD (pts.length - 1) 0) = D
      rw [hQj]
      exact hfm
    · intro i hi1 hij
      have hiL : (L.dropLast ++ R).getD i 0 = L.getD i 0 := by
        rw [List.getD_append _ _ _ i (by rw [List.length_dropLast]; omega),
          getD_dropLast _ _ _ (by omega)]
      have hmemL : L.getD i 0 ∈ (L.drop 1).dropLast :=
        getD_mem_interior L i hi1 (by omega) (by omega)
      have hmemT : L.getD i 0 ∈ ((pts.take (m + 1)).drop 1).dropLast :=
        interior_subset_of_sublist Ls _ hmemL
      obtain ⟨p, hp1, hp2, hpv⟩ := mem_interior_exists _ _ hmemT
      rw [htlen] at hp2
      have hpv2 : pts.getD p 0 = L.getD i 0 := by
        rw [← getD_take pts (m + 1) p 0 (by omega) (by omega)]
        exact hpv
      show dist ((L.dropLast ++ R).getD i 0)
        (pts.getD 0 0) (pts.getD (pts.length - 1) 0) < D
      rw [hiL, ← hpv2]
      exact hfirst p hp1 (by omega)
    · intro i hji hik
      rw [List.length_append, List.length_dropLast] at hik
      have h1 := getD_append_plus L.dropLast R (i - (L.length - 1)) (0 : Pt)
      rw [List.length_dropLast,
        show L.length - 1 + (i - (L.length - 1)) = i from by omega] at h1
      have hq1 : 1 ≤ i - (L.length - 1) := by omega
      have hq2 : i - (L.length - 1) ≤ R.length - 2 := by omega
      have hmemR : R.getD (i - (L.length - 1)) 0 ∈ (R.drop 1).dropLast :=
        getD_mem_interior R _ hq1 hq2 (by omega)
      have hmemD : R.getD (i - (L.length - 1)) 0
          ∈ ((pts.drop m).drop 1).dropLast :=
        interior_subset_of_sublist Rs _ hmemR
      obtain ⟨q, hqa, hqb, hqv⟩ := mem_interior_exists _ _ hmemD
      rw [hdlen] at hqb
      have hqv2 : pts.getD (m + q) 0 = R.getD (i - (L.length - 1)) 0 := by
        rw [← getD_drop pts m q 0 (by omega)]
        exact hqv
      show dist ((L.dropLast ++ R).getD i 0)
        (pts.getD 0 0) (pts.getD (pts.length - 1) 0) ≤ D
      rw [h1, ← hqv2]
      exact hub (m + q) (by omega) (by omega)
  have hQlen3 : 3 ≤ (L.dropLast ++ R).length := by
    rw [List.length_append, List.length_dropLast]
    omega
  have hsp2 : tol < ((L.length - 1, D) : Nat × ℚ).2 := hsp
  rw [douglas_peucker_eq dist tol _ htol hQlen3, hQarg, if_pos hsp2]
  show (douglas_peucker dist tol
      ((L.dropLast ++ R).take (L.length - 1 + 1))).dropLast
    ++ douglas_peucker dist tol ((L.dropLast ++ R).drop (L.length - 1))
    = L.dropLast ++ R
  have hQtake : (L.dropLast ++ R).take (L.length - 1 + 1) = L := by
    rw [show L.length - 1 + 1 = L.dropLast.length + 1 from by
        rw [List.length_dropLast],
      List.take_append, List.take_one, hRhead]
    exact dropLast_append_of_getLast? _ _ hLlast
  have hQdrop : (L.dropLast ++ R).drop (L.length - 1) = R := by
    rw [show L.length - 1 = L.dropLast.length from by
      rw [List.length_dropLast]]
    exact List.drop_left _ _
  rw [hQtake, hQdrop, hL5, hR5]

/-- Idempotence of the fuelled simplifier, by strong induction on an upper
bound of the list length. -/
lemma dp_idem_aux (dist : Pt → Pt → Pt → ℚ) (tol : ℚ) (htol : 0 ≤ tol) :
    ∀ (l : Nat) (pts : List Pt), pts.length ≤ l →
      douglas_peucker dist tol (douglas_peucker dist tol pts)
        = douglas_peucker dist tol pts := by
  intro l
  induction l using Nat.strong_induction_on with
  | _ l ih =>
    intro pts hl
    by_cases hsmall : pts.length ≤ 2
    · rw [douglas_peucker_short dist tol pts hsmall,
        douglas_peucker_short dist tol pts hsmall]
    · have h3 : 3 ≤ pts.length := by omega
      rw [douglas_peucker_eq dist tol pts htol h3]
      by_cases hsp : tol < (dpArgmax dist pts).2
      · rw [if_pos hsp]
        obtain ⟨h0spec, hub0, hcase⟩ := firstArgmax_spec
          (fun i => dist (pts.getD i 0) (pts.getD 0 0)
            (pts.getD (pts.length - 1) 0))
          (pts.length - 2)
        rcases hcase with ⟨hm0, hD0⟩ | ⟨hm1a, hmka, hfma, hfirsta⟩
        · exfalso
          have hz : (dpArgmax dist pts).2 = 0 := hD0
          rw [hz] at hsp
          exact absurd (lt_of_le_of_lt htol hsp) (lt_irrefl 0)
        · have hm1 : 1 ≤ (dpArgmax dist pts).1 := hm1a
          have hmk : (dpArgmax dist pts).1 ≤ pts.length - 2 := hmka
          have hfm : dist (pts.getD (dpArgmax dist pts).1 0) (pts.getD 0 0)
              (pts.getD (pts.length - 1) 0) = (dpArgmax dist pts).2 := hfma
          have hfirst : ∀ i, 1 ≤ i → i < (dpArgmax dist pts).1 →
              dist (pts.getD i 0) (pts.getD 0 0)
                (pts.getD (pts.length - 1) 0) < (dpArgmax dist pts).2 :=
            hfirsta
          have hub : ∀ i, 1 ≤ i → i ≤ pts.length - 2 →
              dist (pts.getD i 0) (pts.getD 0 0)
                (pts.getD (pts.length - 1) 0) ≤ (dpArgmax dist pts).2 := hub0
          have htlen : (pts.take ((dpArgmax dist pts).1 + 1)).length
              = (dpArgmax dist pts).1 + 1 := by
            rw [List.length_take]
            omega
          have hdlen : (pts.drop (dpArgmax dist pts).1).length
              = pts.length - (dpArgmax dist pts).1 := List.length_drop _ _
          exact dp_split_glue dist tol htol pts (dpArgmax dist pts).1
            (dpArgmax dist pts).2 hm1 hmk h3 hsp hfm hfirst hub
            (ih (l - 1) (by omega) _ (by rw [htlen]; omega))
            (ih (l - 1) (by omega) _ (by rw [hdlen]; omega))
      · rw [if_neg hsp]
        exact douglas_peucker_short dist tol _ (by simp)

/-- C8: `_douglas_peucker` is idempotent for every non-negative tolerance:
simplifying the output of a simplification with the same tolerance returns
that output unchanged; proved for an arbitrary point-to-segment distance
function, which covers the source's `_point_line_distance`. -/
theorem douglas_peucker_idempotent (dist : Pt → Pt → Pt → ℚ) (tol : ℚ)
    (pts : List Pt) (htol : 0 ≤ tol) :
    douglas_peucker dist tol (douglas_peucker dist tol pts)
      = douglas_peucker dist tol pts :=
  dp_idem_aux dist tol htol pts.length pts (le_refl _)

/-- Witness for C8 at a concrete 5-point zigzag with distance `p.2`. -/
theorem douglas_peucker_idempotent_witness :
    douglas_peucker (fun p _ _ => p.2) 1
        (douglas_peucker (fun p _ _ => p.2) 1
          [((0 : ℚ), (0 : ℚ)), (3, 5), (6, 1), (9, 4), (12, 0)])
      = douglas_peucker (fun p _ _ => p.2) 1
          [((0 : ℚ), (0 : ℚ)), (3, 5), (6, 1), (9, 4), (12, 0)] :=
  douglas_peucker_idempotent (fun p _ _ => p.2) 1
    [((0 : ℚ), (0 : ℚ)), (3, 5), (6, 1), (9, 4), (12, 0)] zero_le_one
